import Mathlib

/-!
# Student Record Management System: batch allocation core

A shallow embedding of `src/main.c`.  The two global arrays `students[]` and
`batches[]` become the fields of a `Store`; every C function that mutates them
becomes a function from stores to stores.  C `int` values that are stored in
records (`marks`, `allocated_batch`, `capacity`, `filled`, the entries of
`members`, the entries of an `order` array) are integers; loop counters that the
code keeps non-negative are natural numbers.

`realloc`/`malloc` are taken to succeed.  The `members` array of a batch is the
block of `capacity` cells obtained from `malloc`; only its first `filled` cells
are meaningful.
-/

namespace SRMS

/-! ## Data model -/

/-- The `Student` record of `main.c`. -/
structure Student where
  sap : List Char
  name : List Char
  marks : Int
  allocated_batch : Int
  deriving DecidableEq, Repr

/-- The `Batch` record of `main.c`; `members` is the whole allocated array. -/
structure Batch where
  name : List Char
  capacity : Int
  filled : Int
  members : List Int
  deriving DecidableEq, Repr

/-- The global state: `students[0..student_count)` and `batches[0..batch_count)`. -/
structure Store where
  students : List Student
  batches : List Batch
  deriving DecidableEq, Repr

def MAX_STUDENTS : Nat := 1000
def MAX_BATCHES : Nat := 100
def NAME_LEN : Nat := 100
def SAP_LEN : Nat := 32
def MAX_LINE_LEN : Nat := 512

/-- The store at program start: `students = NULL`, `batches = NULL`. -/
def emptyStore : Store := { students := [], batches := [] }

/-- The meaningful part of a batch's array: `members[0..filled)`. -/
def Batch.live (b : Batch) : List Int := b.members.take b.filled.toNat

/-! ## Lookup -/

/-- Linear search of `find_student_by_sap`, as a position counted from `i`. -/
def find_from (sap : List Char) : List Student → Nat → Int
  | [], _ => -1
  | st :: rest, i => if st.sap = sap then (i : Int) else find_from sap rest (i + 1)

/-- `find_student_by_sap`: index of the first student with that key, or `-1`. -/
def find_student_by_sap (s : Store) (sap : List Char) : Int :=
  find_from sap s.students 0

/-- What `student_access` displays for a key: the record `students[idx]` at the
index returned by `find_student_by_sap`, nothing when the index is `-1`. -/
def lookup_student (s : Store) (sap : List Char) : Option Student :=
  let idx := find_student_by_sap s sap
  if idx = -1 then none else s.students[idx.toNat]?

/-! ## Entity store operations

The interactive functions read their arguments from the terminal.  Here each
takes the values that the reads produce: the text of a line after
`fgets` and the removal of the newline, and for `scanf("%d", ..)` either
`some n` or `none` when the conversion fails.  The message printed on return is
the second component of the result. -/

/-- The message with which `add_student_one` returns. -/
inductive AddMsg where
  | database_full
  | sap_empty
  | sap_exists
  | name_empty
  | invalid_marks
  | marks_out_of_range
  | added
  deriving DecidableEq, Repr

/-- `add_student_one` for the lines `sap`, `name` and the scanned `marks`. -/
def add_student_one (s : Store) (sap name : List Char) (marks : Option Int) : Store × AddMsg :=
  if s.students.length ≥ MAX_STUDENTS then (s, AddMsg.database_full)
  else if sap.length = 0 then (s, AddMsg.sap_empty)
  else if find_student_by_sap s sap ≠ -1 then (s, AddMsg.sap_exists)
  else if name.length = 0 then (s, AddMsg.name_empty)
  else
    match marks with
    | none => (s, AddMsg.invalid_marks)
    | some m =>
      if m < 0 ∨ m > 100 then (s, AddMsg.marks_out_of_range)
      else
        ({ s with
           students := s.students ++
             [{ sap := sap, name := name, marks := m, allocated_batch := -1 }] }, AddMsg.added)

/-- The message with which `update_student` returns. -/
inductive UpdateMsg where
  | not_found
  | invalid_input
  | updated_marks_out_of_range
  | updated
  deriving DecidableEq, Repr

/-- `safe_strdup_truncate(dst, src, n)`: at most `n - 1` characters are copied. -/
def safe_strdup_truncate (src : List Char) (n : Nat) : List Char := src.take (n - 1)

/-- `update_student` for the line `sap`, the line `newname` (empty keeps the
name) and the scanned new marks. -/
def update_student (s : Store) (sap newname : List Char) (nm : Option Int) : Store × UpdateMsg :=
  let idx := find_student_by_sap s sap
  if idx = -1 then (s, UpdateMsg.not_found)
  else
    let s1 : Store :=
      if newname.length > 0 then
        { s with
          students := s.students.modify
            (fun st => { st with name := safe_strdup_truncate newname NAME_LEN }) idx.toNat }
      else s
    match nm with
    | none => (s1, UpdateMsg.invalid_input)
    | some m =>
      if 0 ≤ m ∧ m ≤ 100 then
        ({ s1 with students := s1.students.modify (fun st => { st with marks := m }) idx.toNat },
          UpdateMsg.updated)
      else if m ≠ -1 then (s1, UpdateMsg.updated_marks_out_of_range)
      else (s1, UpdateMsg.updated)

/-- The search `for (j = 0; j < filled; ++j) if (members[j] == idx)` over the first
`n` cells: the first position holding `idx`. -/
def find_member (idx : Int) : Nat → List Int → Option Nat
  | 0, _ => none
  | _ + 1, [] => none
  | n + 1, m :: ms => if m = idx then some 0 else (find_member idx n ms).map (fun j => j + 1)

/-- The loop `for (k = j; k < ...; ++k) a[k] = a[k + 1]`, with `n` iterations left
and the counter at `k`. -/
def shift_left {α : Type} : Nat → Nat → List α → List α
  | 0, _, a => a
  | n + 1, k, a =>
    match a[k + 1]? with
    | some v => shift_left n (k + 1) (a.set k v)
    | none => shift_left n (k + 1) a

/-- The loop `for (j = 0; j < filled; ++j) if (members[j] > idx) members[j]--` over
the first `n` cells. -/
def dec_above (idx : Int) : Nat → List Int → List Int
  | 0, ms => ms
  | _ + 1, [] => []
  | n + 1, m :: ms => (if m > idx then m - 1 else m) :: dec_above idx n ms

/-- The body of the `for (b = 0; b < batch_count; ++b)` loop of `delete_student`
for one batch. -/
def delete_in_batch (idx : Int) (b : Batch) : Batch :=
  let b1 : Batch :=
    match find_member idx b.filled.toNat b.members with
    | some j =>
      { b with members := shift_left (b.filled.toNat - 1 - j) j b.members,
               filled := b.filled - 1 }
    | none => b
  { b1 with members := dec_above idx b1.filled.toNat b1.members }

/-- The message with which `delete_student` returns. -/
inductive DeleteMsg where
  | not_found
  | deleted
  deriving DecidableEq, Repr

/-- `delete_student` for the line `sap`. The student array is shifted left over
the removed cell and shrunk by one. -/
def delete_student (s : Store) (sap : List Char) : Store × DeleteMsg :=
  let idx := find_student_by_sap s sap
  if idx = -1 then (s, DeleteMsg.not_found)
  else
    ({ students :=
         (shift_left (s.students.length - 1 - idx.toNat) idx.toNat s.students).take
           (s.students.length - 1),
       batches := s.batches.map (delete_in_batch idx) }, DeleteMsg.deleted)

/-- The message with which `add_batch` returns. -/
inductive BatchMsg where
  | too_many
  | name_empty
  | invalid_capacity
  | capacity_not_positive
  | added
  deriving DecidableEq, Repr

/-- The record `b` that `add_batch` builds: `filled = 0` and a fresh `members`
array of `capacity` cells.  The cells are indeterminate in C; they are shown as
`0`. -/
def new_batch (name : List Char) (c : Int) : Batch :=
  { name := name, capacity := c, filled := 0, members := List.replicate c.toNat 0 }

/-- `add_batch` for the line `name` and the scanned capacity. -/
def add_batch (s : Store) (name : List Char) (capacity : Option Int) : Store × BatchMsg :=
  if s.batches.length ≥ MAX_BATCHES then (s, BatchMsg.too_many)
  else if name.length = 0 then (s, BatchMsg.name_empty)
  else
    match capacity with
    | none => (s, BatchMsg.invalid_capacity)
    | some c =>
      if c ≤ 0 then (s, BatchMsg.capacity_not_positive)
      else
        ({ s with batches := s.batches ++ [new_batch name c] }, BatchMsg.added)

/-! ## The allocator -/

/-- `reset_allocations`. -/
def reset_allocations (s : Store) : Store :=
  { students := s.students.map (fun st => { st with allocated_batch := -1 }),
    batches := s.batches.map (fun b => { b with filled := 0 }) }

/-- The inner `for (d = 0; d < batch_count; ++d)` scan of `allocate_from_order`:
`n` iterations remain and the counter stands at `d`.  Returns the first
`bi = (cur + d) % batch_count` with `filled < capacity`. -/
def scan (bs : List Batch) (cur : Nat) : Nat → Nat → Option Nat
  | 0, _ => none
  | n + 1, d =>
    let bi := (cur + d) % bs.length
    match bs[bi]? with
    | some b => if b.filled < b.capacity then some bi else scan bs cur n (d + 1)
    | none => scan bs cur n (d + 1)

/-- The state of the outer loop of `allocate_from_order`. `stopped` records that
`break` was executed. -/
structure AllocState where
  store : Store
  cur_batch : Nat
  stopped : Bool
  deriving DecidableEq, Repr

/-- The body `batches[bi].members[batches[bi].filled++] = sidx;
students[sidx].allocated_batch = bi;`. -/
def place (s : Store) (bi : Nat) (sidx : Int) : Store :=
  { students := s.students.modify (fun st => { st with allocated_batch := (bi : Int) }) sidx.toNat,
    batches := s.batches.modify
      (fun b => { b with members := b.members.set b.filled.toNat sidx, filled := b.filled + 1 }) bi }

/-- One iteration of the outer loop for the order entry `sidx`. -/
def alloc_step (st : AllocState) (sidx : Int) : AllocState :=
  if st.stopped then st
  else if sidx < 0 ∨ sidx ≥ (st.store.students.length : Int) then st
  else
    match scan st.store.batches st.cur_batch st.store.batches.length 0 with
    | some bi =>
      { store := place st.store bi sidx,
        cur_batch := (bi + 1) % st.store.batches.length,
        stopped := false }
    | none => { st with stopped := true }

/-- The outer loop run over a (prefix of an) order array. -/
def alloc_run (s : Store) (order : List Int) : AllocState :=
  order.foldl alloc_step { store := reset_allocations s, cur_batch := 0, stopped := false }

/-- `allocate_from_order(order, order_len)` with `order_len = order.length`. -/
def allocate_from_order (s : Store) (order : List Int) : Store :=
  (alloc_run s order).store

/-- `total_capacity`. -/
def total_capacity (s : Store) : Int :=
  (s.batches.map (fun b => b.capacity)).sum

/-- Number of students with `allocated_batch >= 0`, the `allocated` counter of
`print_summary`. -/
def allocated_count (s : Store) : Nat :=
  s.students.countP (fun st => decide (0 ≤ st.allocated_batch))

/-! ## Ordering strategies -/

/-- Reduction of a mathematical integer to the range of a 32-bit `int`. -/
def wrap32 (n : Int) : Int := (n + 2147483648) % 4294967296 - 2147483648

/-- `tolower` in the C locale. -/
def tolower (c : Char) : Char :=
  if 'A'.toNat ≤ c.toNat ∧ c.toNat ≤ 'Z'.toNat then Char.ofNat (c.toNat + 32) else c

/-- `strcasecmp`: difference of the first pair of characters that differ after
`tolower`, the end of a string counting as the character `0`. -/
def strcasecmp : List Char → List Char → Int
  | [], [] => 0
  | [], b :: _ => 0 - ((tolower b).toNat : Int)
  | a :: _, [] => ((tolower a).toNat : Int)
  | a :: as, b :: bs =>
    if tolower a = tolower b then strcasecmp as bs
    else ((tolower a).toNat : Int) - ((tolower b).toNat : Int)

/-- `cmp_marks_desc`: `sb->marks - sa->marks` in `int` arithmetic. -/
def cmp_marks_desc (a b : Student) : Int := wrap32 (b.marks - a.marks)

/-- `cmp_name_asc`. -/
def cmp_name_asc (a b : Student) : Int := strcasecmp a.name b.name

/-- `cmp_name_desc`. -/
def cmp_name_desc (a b : Student) : Int := strcasecmp b.name a.name

/-- `cmp_sap_asc`. -/
def cmp_sap_asc (a b : Student) : Int := strcasecmp a.sap b.sap

/-- The library routine `qsort` as a parameter: given the comparison function it
rearranges the array. -/
abbrev Qsort := (Student → Student → Int) → List Student → List Student

/-- What is assumed of `qsort`: the result is a rearrangement of the input. -/
def QsortPermutes (qsort : Qsort) : Prop :=
  ∀ (cmp : Student → Student → Int) (l : List Student), List.Perm (qsort cmp l) l

/-- What the C standard asks of the comparison function handed to `qsort`, on the
elements of the array: the two ways of comparing a pair agree, and the order is
transitive. -/
def CmpConsistent (cmp : Student → Student → Int) (l : List Student) : Prop :=
  (∀ a ∈ l, ∀ b ∈ l, (cmp a b < 0 ↔ 0 < cmp b a)) ∧
  (∀ a ∈ l, ∀ b ∈ l, ∀ c ∈ l, cmp a b ≤ 0 → cmp b c ≤ 0 → cmp a c ≤ 0)

/-- What the C standard promises of `qsort` for such a comparison function: the
result is a rearrangement of the array in ascending order.  The order of
elements that compare equal is left open. -/
def QsortSorts (qsort : Qsort) : Prop :=
  ∀ (cmp : Student → Student → Int) (l : List Student), CmpConsistent cmp l →
    List.Perm (qsort cmp l) l ∧ (qsort cmp l).Pairwise (fun a b => cmp a b ≤ 0)

/-- The shared body of the sorting strategies: sort a copy with `cmp`, look every
sorted record up by its key, allocate in that order. -/
def allocation_sorted (qsort : Qsort) (cmp : Student → Student → Int) (s : Store) : Store :=
  if s.students.length = 0 ∨ s.batches.length = 0 then s
  else
    allocate_from_order s ((qsort cmp s.students).map (fun st => find_student_by_sap s st.sap))

/-- The `order` array that the sorting strategies hand to `allocate_from_order`:
`order[i] = find_student_by_sap(copy[i].sap)` for the sorted copy. -/
def sorted_order (qsort : Qsort) (cmp : Student → Student → Int) (s : Store) : List Int :=
  (qsort cmp s.students).map (fun st => find_student_by_sap s st.sap)

/-- `allocation_by_marks`. -/
def allocation_by_marks (qsort : Qsort) (s : Store) : Store :=
  allocation_sorted qsort cmp_marks_desc s

/-- `allocation_alphabetical(reverse)`. -/
def allocation_alphabetical (qsort : Qsort) (reverse : Bool) (s : Store) : Store :=
  allocation_sorted qsort (if reverse then cmp_name_desc else cmp_name_asc) s

/-- `allocation_by_sap_asc`. -/
def allocation_by_sap_asc (qsort : Qsort) (s : Store) : Store :=
  allocation_sorted qsort cmp_sap_asc s

/-- The exchange `t = idxs[i]; idxs[i] = idxs[j]; idxs[j] = t`. -/
def swap_cells (idxs : List Int) (i j : Nat) : List Int :=
  match idxs[i]?, idxs[j]? with
  | some vi, some vj => (idxs.set i vj).set j vi
  | _, _ => idxs

/-- The loop `for (i = n; i > 0; --i) { j = rand() % (i + 1); swap }`, where
`rand k` is the value returned by the `k`-th call of `rand()` from now. -/
def shuffle_loop (rand : Nat → Nat) : Nat → Nat → List Int → List Int
  | 0, _, idxs => idxs
  | i + 1, k, idxs => shuffle_loop rand i (k + 1) (swap_cells idxs (i + 1) (rand k % (i + 2)))

/-- The cells `(i, j)` exchanged by the iterations of the shuffle loop of
`allocation_random`, in order: `i` runs down from the start value to `1` and
`j = rand() % (i + 1)`. -/
def shuffle_swaps (rand : Nat → Nat) : Nat → Nat → List (Nat × Nat)
  | 0, _ => []
  | i + 1, k => (i + 1, rand k % (i + 2)) :: shuffle_swaps rand i (k + 1)

/-- The array filled by `for (i = 0; i < n; ++i) idxs[i] = i`. -/
def index_list (n : Nat) : List Int := (List.range n).map Int.ofNat

/-- The index array handed to the allocator by `allocation_random`. -/
def random_order (rand : Nat → Nat) (n : Nat) : List Int :=
  shuffle_loop rand (n - 1) 0 (index_list n)

/-- `allocation_random`, for the stream `rand` of values returned by `rand()`. -/
def allocation_random (rand : Nat → Nat) (s : Store) : Store :=
  if s.students.length = 0 ∨ s.batches.length = 0 then s
  else allocate_from_order s (random_order rand s.students.length)

/-! ## CSV save and load

A file is the list of its characters. -/

/-- The text printed by `%d`. -/
def fmt_d (n : Int) : List Char :=
  if n < 0 then '-' :: Nat.toDigits 10 n.natAbs else Nat.toDigits 10 n.toNat

/-- The header line written by `save_csv`. -/
def csv_header : List Char := "sap,name,marks,allocated_batch\n".toList

/-- The loop `for (p = namecopy; *p; ++p) if (*p == ',') *p = ' '` on the copy of
at most `NAME_LEN - 1` characters of the name. -/
def sanitize_name (name : List Char) : List Char :=
  (name.take (NAME_LEN - 1)).map (fun c => if c = ',' then ' ' else c)

/-- The line `fprintf(f, "%s,%s,%d,%d\n", sap, namecopy, marks, allocated_batch)`. -/
def csv_line (st : Student) : List Char :=
  st.sap ++ [','] ++ sanitize_name st.name ++ [','] ++ fmt_d st.marks ++ [','] ++
    fmt_d st.allocated_batch ++ ['\n']

/-- The contents of the file written by `save_csv`. -/
def save_csv (s : Store) : List Char :=
  csv_header ++ (s.students.map csv_line).flatten

/-- The buffers returned by successive calls `fgets(line, size, f)` on the rest of
a file: each call stops after a newline, after `size - 1` characters, or at the
end of the file, and fails when nothing is left.  `cur` holds, reversed, the
characters of the buffer being filled. -/
def fgets_lines_aux (size : Nat) : List Char → List Char → List (List Char)
  | [], cur => if cur = [] then [] else [cur.reverse]
  | c :: rest, cur =>
    if c = '\n' ∨ cur.length + 1 = size - 1 then
      (c :: cur).reverse :: fgets_lines_aux size rest []
    else fgets_lines_aux size rest (c :: cur)

/-- The buffers returned by successive `fgets(line, size, f)` from the start of a
file. -/
def fgets_lines (size : Nat) (content : List Char) : List (List Char) :=
  fgets_lines_aux size content []

/-- A buffer as the string functions see it: up to the first zero byte. -/
def c_string (buf : List Char) : List Char := buf.takeWhile (fun c => c ≠ Char.ofNat 0)

/-- The delimiters `",\n"` of the `strtok` calls. -/
def is_delim (c : Char) : Bool := c = ',' ∨ c = '\n'

/-- The tokens returned by `strtok(line, ",\n")` and the following
`strtok(NULL, ",\n")` calls: the maximal runs of non-delimiters. -/
def strtok_all_aux : List Char → List Char → List (List Char)
  | [], cur => if cur = [] then [] else [cur.reverse]
  | c :: rest, cur =>
    if is_delim c then
      (if cur = [] then strtok_all_aux rest [] else cur.reverse :: strtok_all_aux rest [])
    else strtok_all_aux rest (c :: cur)

/-- All tokens of a line. -/
def strtok_all (line : List Char) : List (List Char) := strtok_all_aux line []

/-- `isspace` in the C locale. -/
def is_space (c : Char) : Bool :=
  c = ' ' ∨ c = '\t' ∨ c = '\n' ∨ c = Char.ofNat 11 ∨ c = Char.ofNat 12 ∨ c = '\r'

/-- The value of the leading decimal digits, continuing from `acc`. -/
def digits_value : List Char → Int → Int
  | [], acc => acc
  | c :: rest, acc =>
    if '0'.toNat ≤ c.toNat ∧ c.toNat ≤ '9'.toNat then
      digits_value rest (acc * 10 + ((c.toNat : Int) - ('0'.toNat : Int)))
    else acc

/-- `atoi`: optional white space, optional sign, decimal digits.  A value outside
the range of `int`, undefined in C, is shown reduced modulo `2^32`. -/
def atoi (s : List Char) : Int :=
  match s.dropWhile is_space with
  | '-' :: r => wrap32 (- digits_value r 0)
  | '+' :: r => wrap32 (digits_value r 0)
  | t => wrap32 (digits_value t 0)

/-- The body of the `while (fgets(...))` loop of `load_csv` for one buffer: no
record when the buffer has no token, otherwise the record built from the first
four tokens, missing ones leaving the zeroed fields and `allocated_batch = -1`. -/
def parse_record (buf : List Char) : Option Student :=
  match strtok_all (c_string buf) with
  | [] => none
  | p0 :: rest =>
    some { sap := p0.take (SAP_LEN - 1),
           name := match rest[0]? with
             | some p => p.take (NAME_LEN - 1)
             | none => [],
           marks := match rest[1]? with
             | some p => atoi p
             | none => 0,
           allocated_batch := match rest[2]? with
             | some p => atoi p
             | none => -1 }

/-- `load_csv` on a file that `fopen` could open, given by its contents.  When
the first `fgets` fails the function returns at once; otherwise the batches and
the students are discarded and one record is appended per buffer that has a
token. -/
def load_csv (s : Store) (content : List Char) : Store :=
  match fgets_lines MAX_LINE_LEN content with
  | [] => s
  | _ :: bufs => { students := bufs.filterMap parse_record, batches := [] }

/-! ## Reachable stores -/

/-- The stores the admin menu can produce from the empty store without loading a
file. -/
inductive Reachable (qsort : Qsort) : Store → Prop where
  | start : Reachable qsort emptyStore
  | add_student (s : Store) (sap name : List Char) (marks : Option Int) :
      Reachable qsort s → Reachable qsort (add_student_one s sap name marks).1
  | update_student (s : Store) (sap newname : List Char) (nm : Option Int) :
      Reachable qsort s → Reachable qsort (update_student s sap newname nm).1
  | delete_student (s : Store) (sap : List Char) :
      Reachable qsort s → Reachable qsort (delete_student s sap).1
  | add_batch (s : Store) (name : List Char) (capacity : Option Int) :
      Reachable qsort s → Reachable qsort (add_batch s name capacity).1
  | by_marks (s : Store) : Reachable qsort s → Reachable qsort (allocation_by_marks qsort s)
  | alphabetical (s : Store) (reverse : Bool) :
      Reachable qsort s → Reachable qsort (allocation_alphabetical qsort reverse s)
  | by_sap (s : Store) : Reachable qsort s → Reachable qsort (allocation_by_sap_asc qsort s)
  | random (s : Store) (rand : Nat → Nat) :
      Reachable qsort s → Reachable qsort (allocation_random rand s)

/-! ## Predicates used in the statements -/

/-- The keys of the students, in array order. -/
def keys (s : Store) : List (List Char) := s.students.map (fun st => st.sap)

/-- No two students have the same key. -/
def UniqueKeys (s : Store) : Prop := (keys s).Nodup

/-- Bidirectional consistency of students and batches, together with the shape
of the batch records: every counter is within `0..capacity`, every `members`
array has `capacity` cells, every occupied cell holds the index of a student
whose `allocated_batch` is that batch, every student with `allocated_batch >= 0`
occurs in the occupied cells of that batch, and no cell is repeated. -/
structure Consistent (s : Store) : Prop where
  wf : ∀ (bi : Nat) (b : Batch), s.batches[bi]? = some b →
    0 ≤ b.filled ∧ b.filled ≤ b.capacity ∧ b.members.length = b.capacity.toNat
  member : ∀ (bi : Nat) (b : Batch) (m : Int), s.batches[bi]? = some b → m ∈ b.live →
    0 ≤ m ∧ ∃ st, s.students[m.toNat]? = some st ∧ st.allocated_batch = (bi : Int)
  assigned : ∀ (i : Nat) (st : Student), s.students[i]? = some st → 0 ≤ st.allocated_batch →
    ∃ b, s.batches[st.allocated_batch.toNat]? = some b ∧ (i : Int) ∈ b.live
  nodup : ∀ (bi : Nat) (b : Batch), s.batches[bi]? = some b → b.live.Nodup

/-- The key that `view_batches` prints for a member cell: `students[si].sap` when
`si >= 0 && si < student_count`, nothing otherwise. -/
def member_key (s : Store) (si : Int) : Option (List Char) :=
  if 0 ≤ si then (s.students[si.toNat]?).map (fun st => st.sap) else none

/-- The keys of the members of a batch, as `view_batches` lists them. -/
def member_keys (s : Store) (b : Batch) : List (List Char) :=
  b.live.filterMap (member_key s)

/-- The new index of the student that stood at `m` once the student at `idx` is
removed from the array. -/
def reindex (idx m : Int) : Int := if m > idx then m - 1 else m

/-- The batch record after the write `members[filled++] = sidx`. -/
def Batch.push (b : Batch) (sidx : Int) : Batch :=
  { b with members := b.members.set b.filled.toNat sidx, filled := b.filled + 1 }

/-- The per-batch bounds `0 ≤ filled ≤ capacity`. -/
def BatchBounds (bs : List Batch) : Prop :=
  ∀ (i : Nat) (b : Batch), bs[i]? = some b → 0 ≤ b.filled ∧ b.filled ≤ b.capacity

/-- The loop state keeps the cursor inside the batch array. -/
def CursorOK (st : AllocState) : Prop :=
  st.cur_batch < st.store.batches.length ∨ st.store.batches.length = 0

/-- The round-robin picture of the loop state: among the batches that still have
room, those before the cursor hold `r + 1` students and those from the cursor on
hold `r`. -/
def RoundInv (st : AllocState) (r : Int) : Prop :=
  ∀ (i : Nat) (b : Batch), st.store.batches[i]? = some b → b.filled < b.capacity →
    (i < st.cur_batch → b.filled = r + 1) ∧ (st.cur_batch ≤ i → b.filled = r)

/-- Sum of the `filled` counters: the number of occupied cells. -/
def sum_filled (bs : List Batch) : Int := (bs.map (fun b => b.filled)).sum

/-- Sum of the capacities of a batch list (what `total_capacity` returns). -/
def sum_capacity (bs : List Batch) : Int := (bs.map (fun b => b.capacity)).sum

/-- A batch record with its `members` array forgotten. -/
def Batch.skel (b : Batch) : Batch := { b with members := [] }

/-- Two loop states that agree on everything the loop reads: the students, the
cursor, the `break` flag, and every batch field except the contents of `members`. -/
def SameControl (a b : AllocState) : Prop :=
  a.store.students = b.store.students ∧ a.cur_batch = b.cur_batch ∧ a.stopped = b.stopped ∧
    a.store.batches.map Batch.skel = b.store.batches.map Batch.skel

/-- Every `filled` counter is non-negative. -/
def FilledNonneg (bs : List Batch) : Prop :=
  ∀ (i : Nat) (b : Batch), bs[i]? = some b → 0 ≤ b.filled

/-- The lines of a text: each ends after its newline, the last one possibly
without. -/
def text_lines_aux : List Char → List Char → List (List Char)
  | [], cur => if cur = [] then [] else [cur.reverse]
  | c :: rest, cur =>
    if c = '\n' then (c :: cur).reverse :: text_lines_aux rest []
    else text_lines_aux rest (c :: cur)

/-- The lines of a file. -/
def text_lines (content : List Char) : List (List Char) := text_lines_aux content []

/-- A C string holds no zero byte. -/
def NoNul (l : List Char) : Prop := ∀ c ∈ l, c.toNat ≠ 0

/-- An order is sorted by `cmp`: whenever `x` stands before `y`, the records at
these indices compare `<= 0`. -/
def OrderSortedBy (cmp : Student → Student → Int) (s : Store) (order : List Int) : Prop :=
  order.Pairwise (fun x y => ∀ (a b : Student), s.students[x.toNat]? = some a →
    s.students[y.toNat]? = some b → cmp a b ≤ 0)

/-! ## Concrete data used to exercise the theorems -/

/-- Three students, two batches of capacity one, with stale allocation data. -/
def demo_store : Store :=
  { students :=
      [ { sap := ['S', '1'], name := ['A', 'l', 'i', 'c', 'e'], marks := 90, allocated_batch := 1 },
        { sap := ['S', '2'], name := ['B', 'o', 'b'], marks := 70, allocated_batch := -1 },
        { sap := ['S', '3'], name := ['C', 'y'], marks := 80, allocated_batch := 0 } ],
    batches :=
      [ { name := ['B', '0'], capacity := 1, filled := 1, members := [2] },
        { name := ['B', '1'], capacity := 1, filled := 1, members := [0] } ] }

/-- Three students and one batch of capacity three holding the first two. -/
def paired_store : Store :=
  { students :=
      [ { sap := ['S', '1'], name := ['A', 'l', 'i', 'c', 'e'], marks := 90, allocated_batch := 0 },
        { sap := ['S', '2'], name := ['B', 'o', 'b'], marks := 70, allocated_batch := 0 },
        { sap := ['S', '3'], name := ['C', 'y'], marks := 80, allocated_batch := -1 } ],
    batches := [ { name := ['B'], capacity := 3, filled := 2, members := [0, 1, 0] } ] }

/-- One conforming `qsort`: insertion sort on `cmp a b <= 0`. -/
def insertion_qsort : Qsort :=
  fun cmp l => l.insertionSort (fun a b => cmp a b ≤ 0)

/-- Two students and a batch of capacity one, after allocation by marks. -/
def demo_reached : Store :=
  allocation_by_marks insertion_qsort
    (add_batch
      (add_student_one
        (add_student_one emptyStore ['S', '1'] ['A', 'l', 'i', 'c', 'e'] (some 70)).1
        ['S', '2'] ['B', 'o', 'b'] (some 90)).1
      ['B', '0'] (some 1)).1

/-- The store built by one `add_student_one` whose key contains a comma. -/
def comma_key_store : Store :=
  (add_student_one emptyStore ['A', ',', 'B'] ['A', 'l', 'i', 'c', 'e'] (some 90)).1

/-- The store built by two `add_student_one` whose keys differ after a comma. -/
def two_comma_keys_store : Store :=
  (add_student_one
    (add_student_one emptyStore ['A', ',', '1'] ['A', 'n', 'n'] (some 10)).1
    ['A', ',', '2'] ['B', 'e', 'n'] (some 20)).1

/-- A file with a header and two records that carry the same key. -/
def duplicate_key_file : List Char :=
  "sap,name,marks,allocated_batch\nA,x,1,-1\nA,y,2,-1\n".toList





/-- A saved file with two records whose marks lie `4000000000` apart. -/
def overflow_file : List Char :=
  "sap,name,marks,allocated_batch\nS1,Ann,2000000000,-1\nS2,Ben,-2000000000,-1\n".toList

/-- The store after loading `overflow_file` and adding one batch of capacity two. -/
def overflow_store : Store :=
  (add_batch (load_csv emptyStore overflow_file) ['B'] (some 2)).1

/-! # Theorems -/

/-! ## Basic facts about the allocator loop -/

section AllocBasics

theorem foldl_alloc_step_stopped (order : List Int) (st : AllocState) (h : st.stopped = true) :
    order.foldl alloc_step st = st := by
  induction order with
  | nil => rfl
  | cons x rest ih => simp [List.foldl, alloc_step, h, ih]

theorem alloc_run_append (s : Store) (pre suf : List Int) :
    alloc_run s (pre ++ suf) = suf.foldl alloc_step (alloc_run s pre) := by
  simp [alloc_run, List.foldl_append]

/-- What `scan` returns when it finds a slot: the first counter value `k ≥ d`
whose batch has room. -/
theorem scan_some {bs : List Batch} {cur : Nat} :
    ∀ (n d bi : Nat), scan bs cur n d = some bi →
      ∃ k b, d ≤ k ∧ k < d + n ∧ bi = (cur + k) % bs.length ∧ bs[bi]? = some b ∧
        b.filled < b.capacity ∧
        ∀ j, d ≤ j → j < k → ∀ c, bs[(cur + j) % bs.length]? = some c → ¬ c.filled < c.capacity := by
  intro n
  induction n with
  | zero => intro d bi h; simp [scan] at h
  | succ n ih =>
    intro d bi h
    simp only [scan] at h
    cases hb : bs[(cur + d) % bs.length]? with
    | none =>
      rw [hb] at h
      obtain ⟨k, b, hk1, hk2, hk3, hk4, hk5, hk6⟩ := ih (d + 1) bi h
      refine ⟨k, b, by omega, by omega, hk3, hk4, hk5, ?_⟩
      intro j hj1 hj2 c hc
      by_cases hjd : j = d
      · subst hjd; rw [hb] at hc; cases hc
      · exact hk6 j (by omega) hj2 c hc
    | some b0 =>
      rw [hb] at h
      by_cases hlt : b0.filled < b0.capacity
      · simp only [hlt, if_true, Option.some.injEq] at h
        subst h
        exact ⟨d, b0, le_refl _, by omega, rfl, hb, hlt, fun j h1 h2 => by omega⟩
      · simp only [hlt, if_false] at h
        obtain ⟨k, b, hk1, hk2, hk3, hk4, hk5, hk6⟩ := ih (d + 1) bi h
        refine ⟨k, b, by omega, by omega, hk3, hk4, hk5, ?_⟩
        intro j hj1 hj2 c hc
        by_cases hjd : j = d
        · subst hjd; rw [hb] at hc; cases hc; exact hlt
        · exact hk6 j (by omega) hj2 c hc

/-- When `scan` finds nothing, every batch it looked at was full. -/
theorem scan_none {bs : List Batch} {cur : Nat} :
    ∀ (n d : Nat), scan bs cur n d = none →
      ∀ j, d ≤ j → j < d + n → ∀ c, bs[(cur + j) % bs.length]? = some c → ¬ c.filled < c.capacity := by
  intro n
  induction n with
  | zero => intro d _ j h1 h2; omega
  | succ n ih =>
    intro d h j hj1 hj2 c hc
    simp only [scan] at h
    cases hb : bs[(cur + d) % bs.length]? with
    | none =>
      rw [hb] at h
      by_cases hjd : j = d
      · subst hjd; rw [hb] at hc; cases hc
      · exact ih (d + 1) h j (by omega) (by omega) c hc
    | some b0 =>
      rw [hb] at h
      by_cases hlt : b0.filled < b0.capacity
      · simp [hlt] at h
      · simp only [hlt, if_false] at h
        by_cases hjd : j = d
        · subst hjd; rw [hb] at hc; cases hc; exact hlt
        · exact ih (d + 1) h j (by omega) (by omega) c hc

/-- Every index below `n` is visited by a full circular scan from `cur < n`. -/
theorem circular_cover {n cur i : Nat} (hcur : cur < n) (hi : i < n) :
    ∃ j, j < n ∧ (cur + j) % n = i := by
  by_cases h : cur ≤ i
  · exact ⟨i - cur, by omega, by rw [Nat.add_sub_cancel' h]; exact Nat.mod_eq_of_lt hi⟩
  · refine ⟨n - cur + i, by omega, ?_⟩
    have : cur + (n - cur + i) = i + n := by omega
    rw [this, Nat.add_mod_right]; exact Nat.mod_eq_of_lt hi

/-- A full scan that fails means every batch is full. -/
theorem scan_none_all_full {bs : List Batch} {cur : Nat} (hcur : cur < bs.length)
    (h : scan bs cur bs.length 0 = none) : ∀ b ∈ bs, ¬ b.filled < b.capacity := by
  intro b hb
  obtain ⟨i, hi, rfl⟩ := List.getElem_of_mem hb
  obtain ⟨j, hj, hji⟩ := circular_cover hcur hi
  exact scan_none _ _ h j (Nat.zero_le _) (by omega) _ (by rw [hji]; exact List.getElem?_eq_getElem hi)

@[simp] theorem place_students_length (s : Store) (bi : Nat) (x : Int) :
    (place s bi x).students.length = s.students.length := by
  simp [place]

@[simp] theorem place_batches_length (s : Store) (bi : Nat) (x : Int) :
    (place s bi x).batches.length = s.batches.length := by
  simp [place]

theorem place_batches_getElem? (s : Store) (bi : Nat) (x : Int) (i : Nat) :
    (place s bi x).batches[i]? =
      (s.batches[i]?).map (fun b => if bi = i then b.push x else b) := by
  simp only [place, List.getElem?_modify, Batch.push]
  rfl

theorem place_students_getElem? (s : Store) (bi : Nat) (x : Int) (i : Nat) :
    (place s bi x).students[i]? =
      (s.students[i]?).map
        (fun st => if x.toNat = i then { st with allocated_batch := (bi : Int) } else st) := by
  simp only [place, List.getElem?_modify]
  rfl

/-- The three ways an iteration of the outer loop can go. -/
theorem alloc_step_cases (st : AllocState) (x : Int) :
    ((st.stopped = true ∨ x < 0 ∨ (st.store.students.length : Int) ≤ x) ∧ alloc_step st x = st) ∨
    (st.stopped = false ∧ 0 ≤ x ∧ x < st.store.students.length ∧
      scan st.store.batches st.cur_batch st.store.batches.length 0 = none ∧
      alloc_step st x = { st with stopped := true }) ∨
    (∃ bi, st.stopped = false ∧ 0 ≤ x ∧ x < st.store.students.length ∧
      scan st.store.batches st.cur_batch st.store.batches.length 0 = some bi ∧
      alloc_step st x =
        { store := place st.store bi x, cur_batch := (bi + 1) % st.store.batches.length,
          stopped := false }) := by
  unfold alloc_step
  by_cases hs : st.stopped = true
  · left; simp [hs]
  · by_cases hx : x < 0 ∨ x ≥ (st.store.students.length : Int)
    · left; simp only [hs, hx]; simp
    · have hs' : st.stopped = false := by simpa using hs
      have hx1 : 0 ≤ x := by omega
      have hx2 : x < st.store.students.length := by omega
      cases hsc : scan st.store.batches st.cur_batch st.store.batches.length 0 with
      | none => right; left; simp [hs', hx]; exact ⟨hx1, hx2⟩
      | some bi => right; right; exact ⟨bi, by simp [hs', hx]; exact ⟨hx1, hx2⟩⟩

/-- Invariants of single iterations are invariants of the whole loop. -/
theorem foldl_alloc_step_inv (P : AllocState → Prop)
    (hstep : ∀ st x, P st → P (alloc_step st x)) :
    ∀ (order : List Int) (st : AllocState), P st → P (order.foldl alloc_step st) := by
  intro order
  induction order with
  | nil => intro st h; exact h
  | cons x rest ih => intro st h; exact ih _ (hstep st x h)

/-- The slot returned by a full scan is a batch index. -/
theorem scan_some_lt {bs : List Batch} {cur n d bi : Nat} (h : scan bs cur n d = some bi) :
    bi < bs.length := by
  obtain ⟨k, b, _, _, _, hb, _⟩ := scan_some n d bi h
  exact (List.getElem?_eq_some_iff.mp hb).1

theorem alloc_step_bounds (st : AllocState) (x : Int) (h : BatchBounds st.store.batches) :
    BatchBounds (alloc_step st x).store.batches := by
  rcases alloc_step_cases st x with ⟨_, h1⟩ | ⟨_, _, _, _, h2⟩ | ⟨bi, _, _, _, hsc, h3⟩
  · rw [h1]; exact h
  · rw [h2]; exact h
  · rw [h3]
    intro i b hb
    simp only [place_batches_getElem?] at hb
    cases hi : st.store.batches[i]? with
    | none => rw [hi] at hb; cases hb
    | some b0 =>
      rw [hi] at hb
      simp only [Option.map_some', Option.some.injEq] at hb
      have hb0 := h i b0 hi
      by_cases hbi : bi = i
      · subst hbi
        obtain ⟨k, b1, _, _, _, hb1, hlt, _⟩ := scan_some _ _ _ hsc
        rw [hi] at hb1; cases hb1
        simp only [if_true] at hb
        subst hb
        simp only [Batch.push]
        omega
      · simp only [hbi, if_false] at hb
        subst hb; exact hb0

theorem alloc_step_cursor (st : AllocState) (x : Int) (h : CursorOK st) :
    CursorOK (alloc_step st x) := by
  rcases alloc_step_cases st x with ⟨_, h1⟩ | ⟨_, _, _, _, h2⟩ | ⟨bi, _, _, _, hsc, h3⟩
  · rw [h1]; exact h
  · rw [h2]; exact h
  · rw [h3]
    have hlt := scan_some_lt hsc
    left
    simp only [place_batches_length]
    exact Nat.mod_lt _ (by omega)

theorem reset_bounds (s : Store) (hcap : ∀ b ∈ s.batches, 0 ≤ b.capacity) :
    BatchBounds (reset_allocations s).batches := by
  intro i b hb
  simp only [reset_allocations, List.getElem?_map] at hb
  cases hi : s.batches[i]? with
  | none => rw [hi] at hb; cases hb
  | some b0 =>
    rw [hi] at hb
    simp only [Option.map_some', Option.some.injEq] at hb
    subst hb
    have := hcap b0 (List.getElem?_mem hi)
    simp; exact this

theorem reset_cursor (s : Store) :
    CursorOK { store := reset_allocations s, cur_batch := 0, stopped := false } := by
  unfold CursorOK
  simp only [reset_allocations, List.length_map]
  omega

theorem alloc_run_cursor (s : Store) (order : List Int) : CursorOK (alloc_run s order) :=
  foldl_alloc_step_inv CursorOK alloc_step_cursor order _ (reset_cursor s)

end AllocBasics

/-! ## Capacity bound of the allocator -/

theorem alloc_step_capacities (st : AllocState) (x : Int) :
    (alloc_step st x).store.batches.map (fun b => b.capacity) =
      st.store.batches.map (fun b => b.capacity) := by
  rcases alloc_step_cases st x with ⟨_, h1⟩ | ⟨_, _, _, _, h2⟩ | ⟨bi, _, _, _, hsc, h3⟩
  · rw [h1]
  · rw [h2]
  · rw [h3]
    apply List.ext_getElem?
    intro i
    simp only [List.getElem?_map, place_batches_getElem?]
    cases st.store.batches[i]? with
    | none => rfl
    | some b =>
      by_cases hbi : bi = i <;> simp [hbi, Batch.push]

theorem add_mod_cases {cur k n : Nat} (hcur : cur < n) (hk : k < n) :
    (cur + k < n ∧ (cur + k) % n = cur + k) ∨ (n ≤ cur + k ∧ (cur + k) % n = cur + k - n) := by
  by_cases h : cur + k < n
  · exact Or.inl ⟨h, Nat.mod_eq_of_lt h⟩
  · refine Or.inr ⟨by omega, ?_⟩
    rw [Nat.mod_eq_sub_mod (by omega)]
    exact Nat.mod_eq_of_lt (by omega)

/-- Where a successful full scan lands relative to the cursor, and which batches
it has passed over. -/
theorem scan_some_position {bs : List Batch} {cur bi : Nat} (hcur : cur < bs.length)
    (h : scan bs cur bs.length 0 = some bi) :
    ∃ b, bs[bi]? = some b ∧ b.filled < b.capacity ∧ bi < bs.length ∧
      ((cur ≤ bi ∧ ∀ i c, cur ≤ i → i < bi → bs[i]? = some c → ¬ c.filled < c.capacity) ∨
       (bi < cur ∧ ∀ i c, (cur ≤ i ∨ i < bi) → bs[i]? = some c → ¬ c.filled < c.capacity)) := by
  obtain ⟨k, b, _, hk, hbi, hb, hlt, hfull⟩ := scan_some _ _ _ h
  have hk' : k < bs.length := by omega
  have hbil : bi < bs.length := (List.getElem?_eq_some_iff.mp hb).1
  refine ⟨b, hb, hlt, hbil, ?_⟩
  rcases add_mod_cases hcur hk' with ⟨h1, h2⟩ | ⟨h1, h2⟩
  · left
    refine ⟨by omega, ?_⟩
    intro i c hi1 hi2 hc
    have := hfull (i - cur) (Nat.zero_le _) (by omega) c
    rw [Nat.add_sub_cancel' hi1, Nat.mod_eq_of_lt (by omega)] at this
    exact this hc
  · right
    refine ⟨by omega, ?_⟩
    intro i c hi hc
    have hil : i < bs.length := (List.getElem?_eq_some_iff.mp hc).1
    by_cases hci : cur ≤ i
    · have := hfull (i - cur) (Nat.zero_le _) (by omega) c
      rw [Nat.add_sub_cancel' hci, Nat.mod_eq_of_lt hil] at this
      exact this hc
    · have hib : i < bi := by omega
      have := hfull (bs.length - cur + i) (Nat.zero_le _) (by omega) c
      have e : cur + (bs.length - cur + i) = i + bs.length := by omega
      rw [e, Nat.add_mod_right, Nat.mod_eq_of_lt hil] at this
      exact this hc

theorem alloc_step_round (st : AllocState) (x : Int) (r : Int) (hc : CursorOK st)
    (h : RoundInv st r) : ∃ r', RoundInv (alloc_step st x) r' := by
  rcases alloc_step_cases st x with ⟨_, h1⟩ | ⟨_, _, _, _, h2⟩ | ⟨bi, _, _, _, hsc, h3⟩
  · rw [h1]; exact ⟨r, h⟩
  · rw [h2]; exact ⟨r, h⟩
  · rw [h3]
    have hbil := scan_some_lt hsc
    have hcur : st.cur_batch < st.store.batches.length := by
      rcases hc with hc | hc <;> omega
    obtain ⟨b0, hb0, hlt0, _, hpos⟩ := scan_some_position hcur hsc
    have key : ∀ (i : Nat) (b : Batch), (place st.store bi x).batches[i]? = some b →
        ∃ c, st.store.batches[i]? = some c ∧ ((i = bi ∧ c = b0 ∧ b.filled = b0.filled + 1 ∧
          b.capacity = b0.capacity) ∨ (i ≠ bi ∧ b = c)) := by
      intro i b hb
      rw [place_batches_getElem?] at hb
      cases hi : st.store.batches[i]? with
      | none => rw [hi] at hb; cases hb
      | some c =>
        rw [hi] at hb
        simp only [Option.map_some', Option.some.injEq] at hb
        refine ⟨c, rfl, ?_⟩
        by_cases hbi : bi = i
        · subst hbi
          rw [hi] at hb0; cases hb0
          left
          simp only [if_true] at hb
          subst hb
          exact ⟨rfl, rfl, rfl, rfl⟩
        · right
          simp only [hbi, if_false] at hb
          exact ⟨fun e => hbi e.symm, hb.symm⟩
    rcases hpos with ⟨hge, hfull⟩ | ⟨hlt, hfull⟩
    · -- the slot lies at or after the cursor
      have hr0 : b0.filled = r := (h bi b0 hb0 hlt0).2 hge
      by_cases hwrap : bi + 1 < st.store.batches.length
      · refine ⟨r, ?_⟩
        intro i b hb hroom
        simp only [Nat.mod_eq_of_lt hwrap]
        obtain ⟨c, hc1, hc2⟩ := key i b hb
        rcases hc2 with ⟨e1, e2, e3, e4⟩ | ⟨e1, e2⟩
        · subst e1; constructor
          · intro _; omega
          · intro hh; omega
        · subst e2
          have hb' := h i b hc1 hroom
          constructor
          · intro hi
            by_cases hic : i < st.cur_batch
            · exact hb'.1 hic
            · exact absurd hroom (hfull i b (by omega) (by omega) hc1)
          · intro hi; exact hb'.2 (by omega)
      · have hlast : bi + 1 = st.store.batches.length := by omega
        refine ⟨r + 1, ?_⟩
        intro i b hb hroom
        have hz : (bi + 1) % st.store.batches.length = 0 := by rw [hlast]; exact Nat.mod_self _
        simp only [hz]
        obtain ⟨c, hc1, hc2⟩ := key i b hb
        have hil : i < st.store.batches.length := (List.getElem?_eq_some_iff.mp hc1).1
        refine ⟨fun hh => absurd hh (Nat.not_lt_zero _), fun _ => ?_⟩
        rcases hc2 with ⟨e1, e2, e3, e4⟩ | ⟨e1, e2⟩
        · omega
        · subst e2
          have hb' := h i b hc1 hroom
          by_cases hic : i < st.cur_batch
          · exact hb'.1 hic
          · exact absurd hroom (hfull i b (by omega) (by omega) hc1)
    · -- the scan wrapped around: the slot lies before the cursor
      have hr0 : b0.filled = r + 1 := (h bi b0 hb0 hlt0).1 hlt
      refine ⟨r + 1, ?_⟩
      intro i b hb hroom
      have hm : (bi + 1) % st.store.batches.length = bi + 1 := Nat.mod_eq_of_lt (by omega)
      simp only [hm]
      obtain ⟨c, hc1, hc2⟩ := key i b hb
      rcases hc2 with ⟨e1, e2, e3, e4⟩ | ⟨e1, e2⟩
      · subst e1; constructor
        · intro _; omega
        · intro hh; omega
      · subst e2
        have hb' := h i b hc1 hroom
        constructor
        · intro hi
          exact absurd hroom (hfull i b (Or.inr (by omega)) hc1)
        · intro hi
          by_cases hic : i < st.cur_batch
          · exact hb'.1 hic
          · exact absurd hroom (hfull i b (Or.inl (by omega)) hc1)

theorem alloc_run_round (s : Store) (order : List Int) : ∃ r, RoundInv (alloc_run s order) r := by
  have h := foldl_alloc_step_inv (fun st => CursorOK st ∧ ∃ r, RoundInv st r)
    (fun st x hst => ⟨alloc_step_cursor st x hst.1, by
      obtain ⟨r, hr⟩ := hst.2
      exact alloc_step_round st x r hst.1 hr⟩) order
    { store := reset_allocations s, cur_batch := 0, stopped := false }
    ⟨reset_cursor s, 0, by
      intro i b hb _
      simp only [reset_allocations, List.getElem?_map] at hb
      cases hi : s.batches[i]? with
      | none => rw [hi] at hb; cases hb
      | some b0 =>
        rw [hi] at hb
        simp only [Option.map_some', Option.some.injEq] at hb
        subst hb
        exact ⟨fun hh => absurd hh (Nat.not_lt_zero _), fun _ => rfl⟩⟩
  exact h.2

/-- C2: round-robin fairness of `allocate_from_order`.  At every placement step
(the iteration for the entry `x` that follows a prefix `pre` of the order and
finds the slot `bi`) the receiving batch has the minimum `filled` among all
batches that still have room at that moment; and after every prefix of the order
the `filled` counts of any two batches with room differ by at most one. -/
theorem allocate_round_robin_fair (s : Store) (order : List Int) :
    (∀ (pre suf : List Int) (x : Int) (bi : Nat), order = pre ++ x :: suf →
      (alloc_run s pre).stopped = false → 0 ≤ x → x < (alloc_run s pre).store.students.length →
      scan (alloc_run s pre).store.batches (alloc_run s pre).cur_batch
        (alloc_run s pre).store.batches.length 0 = some bi →
      ∃ b, (alloc_run s pre).store.batches[bi]? = some b ∧ b.filled < b.capacity ∧
        ∀ (i : Nat) (c : Batch), (alloc_run s pre).store.batches[i]? = some c →
          c.filled < c.capacity → b.filled ≤ c.filled) ∧
    (∀ (pre suf : List Int), order = pre ++ suf →
      ∀ (i j : Nat) (b c : Batch), (alloc_run s pre).store.batches[i]? = some b →
        (alloc_run s pre).store.batches[j]? = some c →
        b.filled < b.capacity → c.filled < c.capacity →
        b.filled ≤ c.filled + 1 ∧ c.filled ≤ b.filled + 1) := by
  constructor
  · intro pre suf x bi _ _ _ _ hsc
    obtain ⟨r, hr⟩ := alloc_run_round s pre
    have hbil := scan_some_lt hsc
    have hcur : (alloc_run s pre).cur_batch < (alloc_run s pre).store.batches.length := by
      rcases alloc_run_cursor s pre with hc | hc <;> omega
    obtain ⟨b0, hb0, hlt0, _, hpos⟩ := scan_some_position hcur hsc
    refine ⟨b0, hb0, hlt0, ?_⟩
    intro i c hc hroom
    have hi := hr i c hc hroom
    have h0 := hr bi b0 hb0 hlt0
    rcases hpos with ⟨hge, hfull⟩ | ⟨hlt, hfull⟩
    · have e0 := h0.2 hge
      by_cases hic : i < (alloc_run s pre).cur_batch
      · have := hi.1 hic; omega
      · have := hi.2 (by omega); omega
    · have e0 := h0.1 hlt
      by_cases hic : i < (alloc_run s pre).cur_batch
      · have := hi.1 hic; omega
      · exact absurd hroom (hfull i c (Or.inl (by omega)) hc)
  · intro pre suf _ i j b c hb hc hbr hcr
    obtain ⟨r, hr⟩ := alloc_run_round s pre
    have h1 := hr i b hb hbr
    have h2 := hr j c hc hcr
    by_cases hi : i < (alloc_run s pre).cur_batch <;>
      by_cases hj : j < (alloc_run s pre).cur_batch
    · have := h1.1 hi; have := h2.1 hj; omega
    · have := h1.1 hi; have := h2.2 (by omega); omega
    · have := h1.2 (by omega); have := h2.1 hj; omega
    · have := h1.2 (by omega); have := h2.2 (by omega); omega

/-! ## Fail-stop placement -/

theorem sum_filled_le_of_full (bs : List Batch) (h : ∀ b ∈ bs, ¬ b.filled < b.capacity) :
    sum_capacity bs ≤ sum_filled bs := by
  induction bs with
  | nil => simp [sum_capacity, sum_filled]
  | cons a rest ih =>
    have h1 := h a (List.mem_cons_self _ _)
    have h2 := ih (fun b hb => h b (List.mem_cons_of_mem _ hb))
    simp only [sum_capacity, sum_filled, List.map_cons, List.sum_cons] at *
    omega

theorem sum_filled_le (bs : List Batch) (h : ∀ b ∈ bs, b.filled ≤ b.capacity) :
    sum_filled bs ≤ sum_capacity bs := by
  induction bs with
  | nil => simp [sum_capacity, sum_filled]
  | cons a rest ih =>
    have h1 := h a (List.mem_cons_self _ _)
    have h2 := ih (fun b hb => h b (List.mem_cons_of_mem _ hb))
    simp only [sum_capacity, sum_filled, List.map_cons, List.sum_cons] at *
    omega

theorem sum_filled_lt_of_room (bs : List Batch) (h : ∀ b ∈ bs, b.filled ≤ b.capacity)
    (hroom : ∃ b ∈ bs, b.filled < b.capacity) : sum_filled bs < sum_capacity bs := by
  induction bs with
  | nil => obtain ⟨b, hb, _⟩ := hroom; cases hb
  | cons a rest ih =>
    have h1 := h a (List.mem_cons_self _ _)
    have hrest : ∀ b ∈ rest, b.filled ≤ b.capacity := fun b hb => h b (List.mem_cons_of_mem _ hb)
    have h2 := sum_filled_le rest hrest
    obtain ⟨b, hb, hlt⟩ := hroom
    simp only [sum_capacity, sum_filled, List.map_cons, List.sum_cons] at *
    rcases List.mem_cons.mp hb with e | e
    · subst e; omega
    · have := ih hrest ⟨b, e, hlt⟩
      omega

theorem sum_filled_modify_push (x : Int) :
    ∀ (bs : List Batch) (bi : Nat), bi < bs.length →
      sum_filled (bs.modify (fun b => b.push x) bi) = sum_filled bs + 1 := by
  intro bs
  induction bs with
  | nil => intro bi h; simp at h
  | cons a rest ih =>
    intro bi h
    cases bi with
    | zero =>
      simp only [List.modify_zero_cons, sum_filled, List.map_cons, List.sum_cons, Batch.push]
      omega
    | succ n =>
      have := ih n (by simpa using h)
      simp only [List.modify_succ_cons, sum_filled, List.map_cons, List.sum_cons] at *
      omega

theorem countP_modify_gain {α : Type} (p : α → Bool) (f : α → α) :
    ∀ (l : List α) (i : Nat) (a : α), l[i]? = some a → p a = false → p (f a) = true →
      (l.modify f i).countP p = l.countP p + 1 := by
  intro l
  induction l with
  | nil => intro i a h; simp at h
  | cons b rest ih =>
    intro i a h hpa hpf
    cases i with
    | zero =>
      simp only [List.getElem?_cons_zero, Option.some.injEq] at h
      subst h
      simp [List.modify_zero_cons, List.countP_cons, hpa, hpf]
    | succ n =>
      simp only [List.getElem?_cons_succ] at h
      have := ih n a h hpa hpf
      simp only [List.modify_succ_cons, List.countP_cons, this]
      omega

theorem place_sum_filled (s : Store) (bi : Nat) (x : Int) (h : bi < s.batches.length) :
    sum_filled (place s bi x).batches = sum_filled s.batches + 1 :=
  sum_filled_modify_push x s.batches bi h

theorem place_sum_capacity (st : AllocState) (x : Int) :
    sum_capacity (alloc_step st x).store.batches = sum_capacity st.store.batches := by
  simp only [sum_capacity, alloc_step_capacities]

theorem bounds_mem {bs : List Batch} (h : BatchBounds bs) :
    ∀ b ∈ bs, b.filled ≤ b.capacity := by
  intro b hb
  obtain ⟨i, hi⟩ := List.mem_iff_getElem?.mp hb
  exact (h i b hi).2

theorem alloc_step_students_length (st : AllocState) (x : Int) :
    (alloc_step st x).store.students.length = st.store.students.length := by
  rcases alloc_step_cases st x with ⟨_, h1⟩ | ⟨_, _, _, _, h2⟩ | ⟨bi, _, _, _, hsc, h3⟩
  · rw [h1]
  · rw [h2]
  · rw [h3]; simp

/-- The loop from an arbitrary running state: with `m` free cells left, exactly
the first `m` entries of the remaining order are placed. -/
theorem alloc_fold_fail_stop :
    ∀ (rest : List Int) (st : AllocState), st.stopped = false → CursorOK st →
      BatchBounds st.store.batches → rest.Nodup →
      (∀ x ∈ rest, 0 ≤ x ∧ x < st.store.students.length) →
      (∀ x ∈ rest, ∀ stu, st.store.students[x.toNat]? = some stu → stu.allocated_batch < 0) →
      (∀ (i : Nat) (stu : Student), (rest.foldl alloc_step st).store.students[i]? = some stu →
          (i : Int) ∈ rest.take (sum_capacity st.store.batches - sum_filled st.store.batches).toNat →
          0 ≤ stu.allocated_batch) ∧
      (∀ (i : Nat),
          (i : Int) ∉ rest.take (sum_capacity st.store.batches - sum_filled st.store.batches).toNat →
          (rest.foldl alloc_step st).store.students[i]? = st.store.students[i]?) ∧
      allocated_count (rest.foldl alloc_step st).store =
        allocated_count st.store +
          min rest.length (sum_capacity st.store.batches - sum_filled st.store.batches).toNat := by
  intro rest
  induction rest with
  | nil =>
    intro st _ _ _ _ _ _
    simp
  | cons x rest ih =>
    intro st hs hc hb hnd hval hfresh
    have hx := hval x (List.mem_cons_self _ _)
    have hle := sum_filled_le _ (bounds_mem hb)
    rcases alloc_step_cases st x with ⟨h0, _⟩ | ⟨_, _, _, hsc, h2⟩ | ⟨bi, _, _, _, hsc, h3⟩
    · rcases h0 with h0 | h0 | h0
      · rw [hs] at h0; cases h0
      · omega
      · omega
    · -- no slot: every batch is full, the loop breaks
      have hfull : ∀ b ∈ st.store.batches, ¬ b.filled < b.capacity := by
        rcases hc with hc | hc
        · exact scan_none_all_full hc hsc
        · intro b hb'
          have := List.length_pos_of_mem hb'
          omega
      have hge := sum_filled_le_of_full _ hfull
      have hm : (sum_capacity st.store.batches - sum_filled st.store.batches).toNat = 0 := by
        omega
      have hfin : (x :: rest).foldl alloc_step st = { st with stopped := true } := by
        rw [List.foldl_cons, h2]
        exact foldl_alloc_step_stopped _ _ rfl
      rw [hfin, hm]
      simp
    · -- a slot is found
      have hbil := scan_some_lt hsc
      obtain ⟨k, b0, _, _, _, hb0, hroom, _⟩ := scan_some _ _ _ hsc
      have hlt := sum_filled_lt_of_room _ (bounds_mem hb) ⟨b0, List.getElem?_mem hb0, hroom⟩
      have hst' : alloc_step st x =
          { store := place st.store bi x, cur_batch := (bi + 1) % st.store.batches.length,
            stopped := false } := h3
      have hcap' : sum_capacity (place st.store bi x).batches = sum_capacity st.store.batches := by
        have := place_sum_capacity st x
        rw [hst'] at this; exact this
      have hfil' : sum_filled (place st.store bi x).batches = sum_filled st.store.batches + 1 :=
        place_sum_filled _ _ _ hbil
      have hm : (sum_capacity st.store.batches - sum_filled st.store.batches).toNat =
          (sum_capacity (place st.store bi x).batches -
            sum_filled (place st.store bi x).batches).toNat + 1 := by
        rw [hcap', hfil']; omega
      have hnd' := (List.nodup_cons.mp hnd)
      have hxnat : ((x.toNat : Nat) : Int) = x := Int.toNat_of_nonneg hx.1
      have hxs : ∃ stx, st.store.students[x.toNat]? = some stx := by
        have hl : x.toNat < st.store.students.length := by omega
        exact ⟨_, List.getElem?_eq_getElem hl⟩
      obtain ⟨stx, hstx⟩ := hxs
      have hother : ∀ (i : Nat), (i : Int) ≠ x →
          (place st.store bi x).students[i]? = st.store.students[i]? := by
        intro i hi
        rw [place_students_getElem?]
        have hne : ¬ x.toNat = i := by omega
        cases st.store.students[i]? with
        | none => rfl
        | some a => simp [hne]
      have hself : (place st.store bi x).students[x.toNat]? =
          some { stx with allocated_batch := (bi : Int) } := by
        rw [place_students_getElem?, hstx]; simp
      have hstore : (alloc_step st x).store = place st.store bi x := by rw [h3]
      have hstop : (alloc_step st x).stopped = false := by rw [h3]
      obtain ⟨ih1, ih2, ih3⟩ := ih (alloc_step st x) hstop (alloc_step_cursor st x hc)
        (alloc_step_bounds st x hb) hnd'.2
        (fun y hy => by
          have := hval y (List.mem_cons_of_mem _ hy)
          rw [alloc_step_students_length]; exact this)
        (fun y hy stu hstu => by
          have hyx : y ≠ x := fun e => hnd'.1 (e ▸ hy)
          have hy0 := hval y (List.mem_cons_of_mem _ hy)
          have : ((y.toNat : Nat) : Int) ≠ x := by
            rw [Int.toNat_of_nonneg hy0.1]; exact hyx
          have e := hother y.toNat this
          rw [hstore, e] at hstu
          exact hfresh y (List.mem_cons_of_mem _ hy) stu hstu)
      rw [hstore] at ih1 ih2 ih3
      rw [List.foldl_cons, hm, List.take_succ_cons]
      refine ⟨?_, ?_, ?_⟩
      · intro i stu hi hmem
        by_cases htk : (i : Int) ∈ rest.take (sum_capacity (place st.store bi x).batches -
            sum_filled (place st.store bi x).batches).toNat
        · exact ih1 i stu hi htk
        · have hix : (i : Int) = x := by
            rcases List.mem_cons.mp hmem with e | e
            · exact e
            · exact absurd e htk
          have hi' : i = x.toNat := by omega
          subst hi'
          rw [ih2 _ htk, hself] at hi
          cases hi
          simp
      · intro i hni
        have hix : (i : Int) ≠ x := fun e => hni (e ▸ List.mem_cons_self _ _)
        have hnt : (i : Int) ∉ rest.take (sum_capacity (place st.store bi x).batches -
            sum_filled (place st.store bi x).batches).toNat :=
          fun e => hni (List.mem_cons_of_mem _ e)
        rw [ih2 i hnt]
        exact hother i hix
      · rw [ih3]
        have hcnt : allocated_count (place st.store bi x) = allocated_count st.store + 1 := by
          unfold allocated_count
          simp only [place]
          apply countP_modify_gain _ _ _ _ stx hstx
          · have := hfresh x (List.mem_cons_self _ _) stx hstx
            simpa using this
          · simp
        rw [hcnt]
        simp only [List.length_cons]
        omega

theorem alloc_run_students_length (s : Store) (order : List Int) :
    (alloc_run s order).store.students.length = s.students.length := by
  have h := foldl_alloc_step_inv
    (fun st => st.store.students.length = s.students.length)
    (fun st x hst => (alloc_step_students_length st x).trans hst) order
    { store := reset_allocations s, cur_batch := 0, stopped := false }
    (by simp [reset_allocations])
  exact h

theorem mem_take_of_getElem? {α : Type} {l : List α} {p m : Nat} {a : α} (h : l[p]? = some a)
    (hp : p < m) : a ∈ l.take m :=
  List.getElem?_mem (by rw [List.getElem?_take_of_lt hp]; exact h)

theorem not_mem_take_of_nodup {α : Type} {l : List α} {p m : Nat} {a : α} (hnd : l.Nodup)
    (h : l[p]? = some a) (hp : m ≤ p) : a ∉ l.take m := by
  intro hmem
  obtain ⟨q, hq⟩ := List.mem_iff_getElem?.mp hmem
  rw [List.getElem?_take] at hq
  by_cases hqm : q < m
  · simp only [hqm, if_true] at hq
    have hql : q < l.length := (List.getElem?_eq_some_iff.mp hq).1
    have := List.getElem?_inj hql hnd (hq.trans h.symm)
    omega
  · simp [hqm] at hq

/-- C1: fail-stop placement.  For a batch list with non-negative capacities and
an order that is a duplicate-free list of valid student indices, after
`allocate_from_order` the number of students with `allocated_batch >= 0` is
`min(N, total_capacity)`; when `total_capacity < N` it is exactly
`total_capacity`; the students with `allocated_batch >= 0` are exactly the first
`total_capacity` entries of the order, and every later entry of the order has
`allocated_batch = -1`. -/
theorem allocate_fail_stop (s : Store) (order : List Int)
    (hcap : ∀ b ∈ s.batches, 0 ≤ b.capacity) (hnd : order.Nodup)
    (hval : ∀ x ∈ order, 0 ≤ x ∧ x < s.students.length) :
    allocated_count (allocate_from_order s order) = min order.length (total_capacity s).toNat ∧
    (total_capacity s < order.length →
      (allocated_count (allocate_from_order s order) : Int) = total_capacity s) ∧
    (∀ (i : Nat) (stu : Student), (allocate_from_order s order).students[i]? = some stu →
      (0 ≤ stu.allocated_batch ↔ (i : Int) ∈ order.take (total_capacity s).toNat)) ∧
    (∀ (p : Nat) (x : Int), order[p]? = some x →
      ∃ stu, (allocate_from_order s order).students[x.toNat]? = some stu ∧
        ((p : Int) < total_capacity s → 0 ≤ stu.allocated_batch) ∧
        (total_capacity s ≤ p → stu.allocated_batch = -1)) := by
  have hinitF : sum_filled (reset_allocations s).batches = 0 := by
    simp only [sum_filled, reset_allocations, List.map_map]
    have : ((fun b : Batch => b.filled) ∘ fun b : Batch => { b with filled := 0 }) =
        fun _ => (0 : Int) := by funext b; rfl
    rw [this]
    simp
  have hinitC : sum_capacity (reset_allocations s).batches = total_capacity s := by
    simp only [sum_capacity, reset_allocations, List.map_map, total_capacity]
    rfl
  have hreset : ∀ (i : Nat) (stu : Student), (reset_allocations s).students[i]? = some stu →
      stu.allocated_batch = -1 := by
    intro i stu h
    simp only [reset_allocations, List.getElem?_map] at h
    cases hs : s.students[i]? with
    | none => rw [hs] at h; cases h
    | some a => rw [hs] at h; cases h; rfl
  have hcnt0 : allocated_count (reset_allocations s) = 0 := by
    unfold allocated_count
    rw [List.countP_eq_zero]
    intro a ha
    obtain ⟨i, hi⟩ := List.mem_iff_getElem?.mp ha
    have := hreset i a hi
    simp [this]
  have htot : 0 ≤ total_capacity s := by
    unfold total_capacity
    apply List.sum_nonneg
    intro x hx
    obtain ⟨b, hb, rfl⟩ := List.mem_map.mp hx
    exact hcap b hb
  obtain ⟨h1, h2, h3⟩ := alloc_fold_fail_stop order
    { store := reset_allocations s, cur_batch := 0, stopped := false } rfl (reset_cursor s)
    (reset_bounds s hcap) hnd
    (fun x hx => by simpa [reset_allocations] using hval x hx)
    (fun x _ stu hstu => by rw [hreset _ stu hstu]; decide)
  simp only [hinitF, hinitC, sub_zero, hcnt0, zero_add] at h1 h2 h3
  have hiff : ∀ (i : Nat) (stu : Student), (allocate_from_order s order).students[i]? = some stu →
      (0 ≤ stu.allocated_batch ↔ (i : Int) ∈ order.take (total_capacity s).toNat) := by
    intro i stu hi
    constructor
    · intro hge
      by_contra hni
      have e := h2 i hni
      have hi' : (reset_allocations s).students[i]? = some stu := by
        rw [← e]; exact hi
      have := hreset i stu hi'
      omega
    · intro hmem
      exact h1 i stu hi hmem
  refine ⟨h3, ?_, hiff, ?_⟩
  · intro hlt
    show ((allocated_count (alloc_run s order).store : Nat) : Int) = _
    unfold alloc_run
    rw [h3]
    omega
  · intro p x hp
    have hxv := hval x (List.getElem?_mem hp)
    have hl : x.toNat < (allocate_from_order s order).students.length := by
      show x.toNat < (alloc_run s order).store.students.length
      rw [alloc_run_students_length]; omega
    refine ⟨_, List.getElem?_eq_getElem hl, ?_, ?_⟩
    · intro hpt
      apply (hiff _ _ (List.getElem?_eq_getElem hl)).mpr
      rw [Int.toNat_of_nonneg hxv.1]
      exact mem_take_of_getElem? hp (by omega)
    · intro hpt
      have hni : ((x.toNat : Nat) : Int) ∉ order.take (total_capacity s).toNat := by
        rw [Int.toNat_of_nonneg hxv.1]
        exact not_mem_take_of_nodup hnd hp (by omega)
      have e := h2 x.toNat hni
      have hi' : (reset_allocations s).students[x.toNat]? =
          some ((allocate_from_order s order).students[x.toNat]) := by
        rw [← e]; exact List.getElem?_eq_getElem hl
      exact hreset _ _ hi'

/-- The fail-stop theorem applied to three students and total capacity two. -/
theorem allocate_fail_stop_witness :
    (∀ b ∈ demo_store.batches, 0 ≤ b.capacity) ∧ ([2, 0, 1] : List Int).Nodup ∧
    (∀ x ∈ ([2, 0, 1] : List Int), 0 ≤ x ∧ x < demo_store.students.length) ∧
    allocated_count (allocate_from_order demo_store [2, 0, 1]) =
      min ([2, 0, 1] : List Int).length (total_capacity demo_store).toNat :=
  ⟨by decide, by decide, by decide,
    (allocate_fail_stop demo_store [2, 0, 1] (by decide) (by decide) (by decide)).1⟩

theorem scan_skel (bs : List Batch) (cur : Nat) :
    ∀ (n d : Nat), scan (bs.map Batch.skel) cur n d = scan bs cur n d := by
  intro n
  induction n with
  | zero => intro d; rfl
  | succ n ih =>
    intro d
    simp only [scan, List.length_map, List.getElem?_map, ih]
    cases bs[(cur + d) % bs.length]? with
    | none => rfl
    | some b => rfl

theorem scan_congr {bs bs' : List Batch} (h : bs.map Batch.skel = bs'.map Batch.skel) (cur : Nat) :
    scan bs cur bs.length 0 = scan bs' cur bs'.length 0 := by
  have hl : bs.length = bs'.length := by
    have := congrArg List.length h
    simpa using this
  rw [← scan_skel bs, ← scan_skel bs', h, hl]

theorem skel_modify_push (x : Int) (bs : List Batch) (bi : Nat) :
    (bs.modify (fun b => b.push x) bi).map Batch.skel =
      (bs.map Batch.skel).modify (fun b => { b with filled := b.filled + 1 }) bi := by
  apply List.ext_getElem?
  intro i
  simp only [List.getElem?_map, List.getElem?_modify]
  cases bs[i]? with
  | none => rfl
  | some b => by_cases h : bi = i <;> simp [h, Batch.skel, Batch.push]

theorem alloc_step_same_control {a b : AllocState} (h : SameControl a b) (x : Int) :
    SameControl (alloc_step a x) (alloc_step b x) := by
  obtain ⟨h1, h2, h3, h4⟩ := h
  have hl : a.store.batches.length = b.store.batches.length := by
    have := congrArg List.length h4
    simpa using this
  have hsc := scan_congr h4 a.cur_batch
  unfold alloc_step
  rw [← h3, ← h1, ← h2, ← hsc, ← hl]
  by_cases hs : a.stopped = true
  · simp only [hs, if_true]; exact ⟨h1, h2, h3, h4⟩
  · have hs' : a.stopped = false := by simpa using hs
    simp only [hs', Bool.false_eq_true, if_false]
    by_cases hx : x < 0 ∨ x ≥ (a.store.students.length : Int)
    · simp only [hx, if_true]; exact ⟨h1, h2, by rw [← h3, hs'], h4⟩
    · simp only [hx, if_false]
      cases scan a.store.batches a.cur_batch a.store.batches.length 0 with
      | none => exact ⟨h1, rfl, rfl, h4⟩
      | some bi =>
        refine ⟨?_, rfl, rfl, ?_⟩
        · simp only [place, h1]
        · have e := skel_modify_push x a.store.batches bi
          have e' := skel_modify_push x b.store.batches bi
          simp only [Batch.push] at e e'
          simp only [place]
          rw [e, e', h4]

theorem batches_ext {bs bs' : List Batch} (h : bs.map Batch.skel = bs'.map Batch.skel)
    (hm : bs.map (fun b => b.members) = bs'.map (fun b => b.members)) : bs = bs' := by
  apply List.ext_getElem?
  intro i
  have h1 := congrArg (fun l => l[i]?) h
  have h2 := congrArg (fun l => l[i]?) hm
  simp only [List.getElem?_map] at h1 h2
  cases ha : bs[i]? with
  | none =>
    cases hb : bs'[i]? with
    | none => rfl
    | some b => rw [ha, hb] at h1; cases h1
  | some a =>
    cases hb : bs'[i]? with
    | none => rw [ha, hb] at h1; cases h1
    | some b =>
      rw [ha, hb] at h1 h2
      simp only [Option.map_some', Option.some.injEq] at h1 h2
      cases a; cases b
      simp only [Batch.skel, Batch.mk.injEq] at h1 h2 ⊢
      simp only [h1, h2, and_self]

theorem take_set_of_le {α : Type} (a : α) {n m : Nat} (l : List α) (h : m ≤ n) :
    (l.set n a).take m = l.take m :=
  List.ext_getElem? fun i => by
    rw [List.getElem?_take, List.getElem?_take]
    split
    · next h' => rw [List.getElem?_set_ne (by omega)]
    · rfl

theorem alloc_step_filled_nonneg (st : AllocState) (x : Int) (h : FilledNonneg st.store.batches) :
    FilledNonneg (alloc_step st x).store.batches := by
  rcases alloc_step_cases st x with ⟨_, h1⟩ | ⟨_, _, _, _, h2⟩ | ⟨bi, _, _, _, hsc, h3⟩
  · rw [h1]; exact h
  · rw [h2]; exact h
  · rw [h3]
    intro i b hb
    simp only [place_batches_getElem?] at hb
    cases hi : st.store.batches[i]? with
    | none => rw [hi] at hb; cases hb
    | some b0 =>
      rw [hi] at hb
      simp only [Option.map_some', Option.some.injEq] at hb
      have hb0 := h i b0 hi
      by_cases hbi : bi = i
      · simp only [hbi, if_true] at hb
        subst hb
        simp only [Batch.push]
        omega
      · simp only [hbi, if_false] at hb
        subst hb; exact hb0

/-- Cells below `filled` are never written again: the occupied prefix of every
`members` array survives the rest of the loop. -/
theorem alloc_fold_prefix_stable :
    ∀ (rest : List Int) (st : AllocState), FilledNonneg st.store.batches →
      ∀ (i : Nat) (b : Batch), st.store.batches[i]? = some b →
        ∃ b', (rest.foldl alloc_step st).store.batches[i]? = some b' ∧
          b'.members.take b.filled.toNat = b.members.take b.filled.toNat ∧
          b'.members.length = b.members.length := by
  intro rest
  induction rest with
  | nil => intro st _ i b hb; exact ⟨b, hb, rfl, rfl⟩
  | cons x rest ih =>
    intro st hn i b hb
    rw [List.foldl_cons]
    have hn' := alloc_step_filled_nonneg st x hn
    rcases alloc_step_cases st x with ⟨_, h1⟩ | ⟨_, _, _, _, h2⟩ | ⟨bi, _, _, _, hsc, h3⟩
    · rw [h1]; exact ih st hn i b hb
    · have hb' : (alloc_step st x).store.batches[i]? = some b := by rw [h2]; exact hb
      exact ih _ hn' i b hb'
    · by_cases hbi : bi = i
      · have hb' : (alloc_step st x).store.batches[i]? = some (b.push x) := by
          rw [h3]; simp only [place_batches_getElem?, hb]; simp [hbi]
        obtain ⟨b', e1, e2, e3⟩ := ih _ hn' i _ hb'
        refine ⟨b', e1, ?_, ?_⟩
        · have h0 := hn i b hb
          have e4 := congrArg (List.take b.filled.toNat) e2
          simp only [List.take_take, Batch.push] at e4
          have hmin : min b.filled.toNat (b.filled + 1).toNat = b.filled.toNat := by omega
          rw [hmin] at e4
          rw [e4]
          exact take_set_of_le x b.members (le_refl _)
        · rw [e3]; simp [Batch.push]
      · have hb' : (alloc_step st x).store.batches[i]? = some b := by
          rw [h3]; simp only [place_batches_getElem?, hb]; simp [hbi]
        exact ih _ hn' i b hb'

theorem set_eq_self_of_getElem? {α : Type} (l : List α) (p : Nat) (x : α)
    (h : p < l.length → l[p]? = some x) : l.set p x = l := by
  apply List.ext_getElem?
  intro j
  rw [List.getElem?_set]
  by_cases hpj : p = j
  · subst hpj
    by_cases hp : p < l.length
    · simp only [hp, if_true]; exact (h hp).symm
    · simp only [hp, if_false, if_true]
      exact (List.getElem?_eq_none (by omega)).symm
  · simp only [hpj, if_false]

theorem skel_getElem? {bs bs' : List Batch} (h : bs.map Batch.skel = bs'.map Batch.skel)
    {i : Nat} {a : Batch} (ha : bs[i]? = some a) :
    ∃ b, bs'[i]? = some b ∧ b.filled = a.filled ∧ b.capacity = a.capacity := by
  have h1 := congrArg (fun l => l[i]?) h
  simp only [List.getElem?_map, ha, Option.map_some'] at h1
  cases hb : bs'[i]? with
  | none => rw [hb] at h1; cases h1
  | some b =>
    rw [hb] at h1
    simp only [Option.map_some', Option.some.injEq] at h1
    refine ⟨b, rfl, ?_, ?_⟩
    · have := congrArg Batch.filled h1; simpa [Batch.skel] using this.symm
    · have := congrArg Batch.capacity h1; simpa [Batch.skel] using this.symm

/-- Running the loop again over arrays that already hold the outcome of the run
rewrites every cell with the value it has. -/
theorem alloc_fold_replay :
    ∀ (rest : List Int) (a b : AllocState), SameControl a b → FilledNonneg a.store.batches →
      b.store.batches.map (fun c => c.members) =
        (rest.foldl alloc_step a).store.batches.map (fun c => c.members) →
      rest.foldl alloc_step b = rest.foldl alloc_step a := by
  intro rest
  induction rest with
  | nil =>
    intro a b hsim _ hm
    obtain ⟨h1, h2, h3, h4⟩ := hsim
    simp only [List.foldl_nil] at hm ⊢
    have hb := batches_ext h4.symm hm
    cases a with
    | mk sa ca pa =>
      cases b with
      | mk sb cb pb =>
        cases sa; cases sb
        simp only at h1 h2 h3 hb
        simp only [AllocState.mk.injEq, Store.mk.injEq]
        exact ⟨⟨h1.symm, hb⟩, h2.symm, h3.symm⟩
  | cons x rest ih =>
    intro a b hsim hn hm
    rw [List.foldl_cons] at hm ⊢
    rw [List.foldl_cons]
    apply ih _ _ (alloc_step_same_control hsim x) (alloc_step_filled_nonneg a x hn)
    obtain ⟨h1, h2, h3, h4⟩ := hsim
    rcases alloc_step_cases b x with ⟨_, e1⟩ | ⟨_, _, _, _, e2⟩ | ⟨bi, hbs, hx0, hx1, hsc, e3⟩
    · rw [e1]; exact hm
    · rw [e2]; exact hm
    · have hsa : scan a.store.batches a.cur_batch a.store.batches.length 0 = some bi := by
        rw [scan_congr h4, h2]; exact hsc
      have hstepa : alloc_step a x =
          { store := place a.store bi x, cur_batch := (bi + 1) % a.store.batches.length,
            stopped := false } := by
        have hnot : ¬ (x < 0 ∨ x ≥ (a.store.students.length : Int)) := by
          rw [h1]; omega
        unfold alloc_step
        rw [h3, hbs]
        simp only [Bool.false_eq_true, if_false, hnot, hsa]
      obtain ⟨k, b0, _, _, _, hb0, _, _⟩ := scan_some _ _ _ hsc
      obtain ⟨a0, ha0, haf, _⟩ := skel_getElem? h4.symm hb0
      have ha0' : (alloc_step a x).store.batches[bi]? = some (a0.push x) := by
        rw [hstepa]; simp only [place_batches_getElem?, ha0]; simp
      obtain ⟨f, hf1, hf2, hf3⟩ := alloc_fold_prefix_stable rest _
        (alloc_step_filled_nonneg a x hn) bi _ ha0'
      have ha0n := hn bi a0 ha0
      have hbf : b0.members = f.members := by
        have := congrArg (fun l => l[bi]?) hm
        simp only [List.getElem?_map, hb0, hf1, Option.map_some', Option.some.injEq] at this
        exact this
      have hset : f.members.set a0.filled.toNat x = f.members := by
        apply set_eq_self_of_getElem?
        intro hp
        have hlen : a0.filled.toNat < a0.members.length := by
          simp only [Batch.push, List.length_set] at hf3; omega
        have e : (a0.filled + 1).toNat = a0.filled.toNat + 1 := by omega
        have h5 := congrArg (fun l => l[a0.filled.toNat]?) hf2
        simp only [Batch.push, e] at h5
        rw [List.getElem?_take_of_lt (Nat.lt_succ_self _),
          List.getElem?_take_of_lt (Nat.lt_succ_self _), List.getElem?_set] at h5
        simp only [if_true, hlen] at h5
        exact h5
      rw [e3]
      apply List.ext_getElem?
      intro i
      have hmi := congrArg (fun l => l[i]?) hm
      simp only [List.getElem?_map] at hmi ⊢
      rw [← hmi, place_batches_getElem?]
      cases hbi : b.store.batches[i]? with
      | none => rfl
      | some c =>
        by_cases hi : bi = i
        · subst hi
          rw [hb0] at hbi; cases hbi
          simp only [Option.map_some', if_true, Batch.push, Option.some.injEq]
          rw [← haf, hbf]; exact hset
        · simp [hi]

theorem alloc_run_reset_students (s : Store) (order : List Int) :
    (reset_allocations (alloc_run s order).store).students = (reset_allocations s).students := by
  have h := foldl_alloc_step_inv
    (fun st => (reset_allocations st.store).students = (reset_allocations s).students)
    (fun st x hst => by
      rcases alloc_step_cases st x with ⟨_, h1⟩ | ⟨_, _, _, _, h2⟩ | ⟨bi, _, _, _, hsc, h3⟩
      · rw [h1]; exact hst
      · rw [h2]; exact hst
      · rw [h3]
        refine Eq.trans ?_ hst
        simp only [reset_allocations]
        apply List.ext_getElem?
        intro i
        simp only [List.getElem?_map, place_students_getElem?]
        cases st.store.students[i]? with
        | none => rfl
        | some a => by_cases hi : x.toNat = i <;> simp [hi]) order
    { store := reset_allocations s, cur_batch := 0, stopped := false }
    (by simp [reset_allocations, Function.comp_def])
  exact h

theorem alloc_run_reset_skel (s : Store) (order : List Int) :
    (reset_allocations (alloc_run s order).store).batches.map Batch.skel =
      (reset_allocations s).batches.map Batch.skel := by
  have h := foldl_alloc_step_inv
    (fun st => (reset_allocations st.store).batches.map Batch.skel =
      (reset_allocations s).batches.map Batch.skel)
    (fun st x hst => by
      rcases alloc_step_cases st x with ⟨_, h1⟩ | ⟨_, _, _, _, h2⟩ | ⟨bi, _, _, _, hsc, h3⟩
      · rw [h1]; exact hst
      · rw [h2]; exact hst
      · rw [h3]
        refine Eq.trans ?_ hst
        simp only [reset_allocations]
        apply List.ext_getElem?
        intro i
        simp only [List.getElem?_map, place_batches_getElem?]
        cases st.store.batches[i]? with
        | none => rfl
        | some a => by_cases hi : bi = i <;> simp [hi, Batch.skel, Batch.push]) order
    { store := reset_allocations s, cur_batch := 0, stopped := false }
    (by simp [reset_allocations, Function.comp_def, Batch.skel])
  exact h

/-- C6: `allocate_from_order` is idempotent.  For every store and every order,
running it a second time with the same order gives exactly the store the first
run gave: the same `allocated_batch` for every student and the same `filled`
and `members` for every batch, whatever the assignment was before the first
run. -/
theorem allocate_idempotent (s : Store) (order : List Int) :
    allocate_from_order (allocate_from_order s order) order = allocate_from_order s order := by
  have h := alloc_fold_replay order
    { store := reset_allocations s, cur_batch := 0, stopped := false }
    { store := reset_allocations (alloc_run s order).store, cur_batch := 0, stopped := false }
    ⟨(alloc_run_reset_students s order).symm, rfl, rfl, (alloc_run_reset_skel s order).symm⟩
    (by
      intro i b hb
      simp only [reset_allocations, List.getElem?_map] at hb
      cases hi : s.batches[i]? with
      | none => rw [hi] at hb; cases hb
      | some b0 => rw [hi] at hb; cases hb; exact le_refl _)
    (by
      show (reset_allocations (alloc_run s order).store).batches.map (fun c => c.members) =
        (alloc_run s order).store.batches.map (fun c => c.members)
      simp [reset_allocations, Function.comp_def])
  show (alloc_run (alloc_run s order).store order).store = (alloc_run s order).store
  unfold alloc_run at h ⊢
  rw [h]

/-! ## Lookup by key -/

/-- The search returns the first position whose key matches. -/
theorem find_from_spec (sap : List Char) :
    ∀ (l : List Student) (i : Nat),
      (find_from sap l i = -1 ∧ ∀ st ∈ l, st.sap ≠ sap) ∨
      (∃ (j : Nat) (st : Student), find_from sap l i = ((i + j : Nat) : Int) ∧ l[j]? = some st ∧
        st.sap = sap ∧ ∀ (j' : Nat) (st' : Student), j' < j → l[j']? = some st' → st'.sap ≠ sap) := by
  intro l
  induction l with
  | nil => intro i; left; exact ⟨rfl, fun st h => by cases h⟩
  | cons a rest ih =>
    intro i
    by_cases ha : a.sap = sap
    · right
      refine ⟨0, a, by simp [find_from, ha], by simp, ha, ?_⟩
      intro j' _ h; omega
    · rcases ih (i + 1) with ⟨h1, h2⟩ | ⟨j, st, h1, h2, h3, h4⟩
      · left
        refine ⟨by simp [find_from, ha, h1], ?_⟩
        intro st hst
        rcases List.mem_cons.mp hst with e | e
        · subst e; exact ha
        · exact h2 st e
      · right
        refine ⟨j + 1, st, ?_, by simpa using h2, h3, ?_⟩
        · simp only [find_from, ha, if_false, h1]
          congr 1; omega
        · intro j' st' hj' hst'
          cases j' with
          | zero => simp at hst'; subst hst'; exact ha
          | succ n => exact h4 n st' (by omega) (by simpa using hst')

theorem find_eq_neg_one_iff (s : Store) (sap : List Char) :
    find_student_by_sap s sap = -1 ↔ sap ∉ keys s := by
  unfold find_student_by_sap keys
  rcases find_from_spec sap s.students 0 with ⟨h1, h2⟩ | ⟨j, st, h1, h2, h3, _⟩
  · simp only [h1, true_iff, List.mem_map, not_exists, not_and]
    exact fun st hst => h2 st hst
  · constructor
    · intro h; rw [h1] at h; omega
    · intro h
      exact absurd (List.mem_map.mpr ⟨st, List.getElem?_mem h2, h3⟩) h

/-- A successful search: the index is in range and the record there has the key. -/
theorem find_some (s : Store) (sap : List Char) (h : find_student_by_sap s sap ≠ -1) :
    ∃ (j : Nat) (st : Student), find_student_by_sap s sap = (j : Int) ∧
      s.students[j]? = some st ∧ st.sap = sap ∧
      ∀ (j' : Nat) (st' : Student), j' < j → s.students[j']? = some st' → st'.sap ≠ sap := by
  unfold find_student_by_sap at h ⊢
  rcases find_from_spec sap s.students 0 with ⟨h1, _⟩ | ⟨j, st, h1, h2, h3, h4⟩
  · exact absurd h1 h
  · exact ⟨j, st, by rw [h1]; simp, h2, h3, h4⟩

/-- With unique keys the search for the key of the record at `i` returns `i`. -/
theorem find_of_unique (s : Store) (hu : UniqueKeys s) (i : Nat) (st : Student)
    (hi : s.students[i]? = some st) : find_student_by_sap s st.sap = (i : Int) := by
  have hne : find_student_by_sap s st.sap ≠ -1 := by
    intro h
    exact (find_eq_neg_one_iff s st.sap).mp h (List.mem_map.mpr ⟨st, List.getElem?_mem hi, rfl⟩)
  obtain ⟨j, st', h1, h2, h3, _⟩ := find_some s st.sap hne
  have hil : i < (keys s).length := by
    simp only [keys, List.length_map]; exact (List.getElem?_eq_some_iff.mp hi).1
  have hk1 : (keys s)[i]? = some st.sap := by simp [keys, hi]
  have hk2 : (keys s)[j]? = some st.sap := by simp [keys, h2, h3]
  have := List.getElem?_inj hil hu (hk1.trans hk2.symm)
  rw [h1, this]

/-! ## Adding a student -/

/-- C10: add then look up.  For a store below the student limit, a non-empty key
that is not yet present, a non-empty name and marks in `[0, 100]`,
`add_student_one` succeeds, leaves the batches alone and appends the record last
with `allocated_batch = -1`; the search for the key then returns the last index
and the lookup returns exactly that key, name and marks; and a second
`add_student_one` with the same key (any name, any marks) does not report
success and returns the store unchanged, with the message that the key exists
whenever the store is still below the limit. -/
theorem add_then_lookup (s : Store) (sap name : List Char) (m : Int)
    (hroom : s.students.length < MAX_STUDENTS) (hsap : sap ≠ []) (hname : name ≠ [])
    (hm0 : 0 ≤ m) (hm1 : m ≤ 100) (hnew : sap ∉ keys s) :
    (add_student_one s sap name (some m)).2 = AddMsg.added ∧
    (add_student_one s sap name (some m)).1.batches = s.batches ∧
    (add_student_one s sap name (some m)).1.students =
      s.students ++ [{ sap := sap, name := name, marks := m, allocated_batch := -1 }] ∧
    find_student_by_sap (add_student_one s sap name (some m)).1 sap = (s.students.length : Int) ∧
    lookup_student (add_student_one s sap name (some m)).1 sap =
      some { sap := sap, name := name, marks := m, allocated_batch := -1 } ∧
    (∀ (name' : List Char) (marks' : Option Int),
      (add_student_one (add_student_one s sap name (some m)).1 sap name' marks').1 =
        (add_student_one s sap name (some m)).1 ∧
      (add_student_one (add_student_one s sap name (some m)).1 sap name' marks').2 ≠
        AddMsg.added ∧
      ((add_student_one s sap name (some m)).1.students.length < MAX_STUDENTS →
        (add_student_one (add_student_one s sap name (some m)).1 sap name' marks').2 =
          AddMsg.sap_exists)) := by
  have hfind : find_student_by_sap s sap = -1 := (find_eq_neg_one_iff s sap).mpr hnew
  have hsl : ¬ sap.length = 0 := by
    intro h; exact hsap (List.length_eq_zero.mp h)
  have hnl : ¬ name.length = 0 := by
    intro h; exact hname (List.length_eq_zero.mp h)
  obtain ⟨s', hs'⟩ : ∃ s' : Store, s' = { s with
      students := s.students ++
        [{ sap := sap, name := name, marks := m, allocated_batch := -1 }] } := ⟨_, rfl⟩
  have hst' : s'.students =
      s.students ++ [{ sap := sap, name := name, marks := m, allocated_batch := -1 }] := by
    rw [hs']
  have hbt' : s'.batches = s.batches := by rw [hs']
  have hadd : add_student_one s sap name (some m) = (s', AddMsg.added) := by
    unfold add_student_one
    have h1 : ¬ s.students.length ≥ MAX_STUDENTS := by omega
    have h2 : ¬ (m < 0 ∨ m > 100) := by omega
    simp only [h1, hsl, hfind, hnl, h2, if_false, ne_eq, not_true_eq_false]
    rw [hs']
  have h1 : (add_student_one s sap name (some m)).1 = s' := by rw [hadd]
  have h2 : (add_student_one s sap name (some m)).2 = AddMsg.added := by rw [hadd]
  rw [h1, h2]
  have hkey : sap ∈ keys s' := by
    simp [keys, hst']
  have hne : find_student_by_sap s' sap ≠ -1 :=
    fun h => (find_eq_neg_one_iff _ sap).mp h hkey
  have hfind' : find_student_by_sap s' sap = (s.students.length : Int) := by
    obtain ⟨j, st, h1, h2, h3, _⟩ := find_some _ sap hne
    rw [h1]
    rw [hst'] at h2
    have hjl : j < s.students.length + 1 := by
      have := (List.getElem?_eq_some_iff.mp h2).1
      simpa using this
    by_cases hj : j < s.students.length
    · rw [List.getElem?_append_left hj] at h2
      exact absurd (List.mem_map.mpr ⟨st, List.getElem?_mem h2, h3⟩) hnew
    · congr 1; omega
  refine ⟨rfl, hbt', hst', hfind', ?_, ?_⟩
  · unfold lookup_student
    simp only [hfind']
    have : ¬ ((s.students.length : Int) = -1) := by omega
    simp only [this, if_false, Int.toNat_ofNat, hst']
    simp
  · intro name' marks'
    unfold add_student_one
    by_cases hfull : s'.students.length ≥ MAX_STUDENTS
    · simp only [hfull, if_true]
      exact ⟨trivial, by decide, fun h => by omega⟩
    · simp only [hfull, hsl, hne, if_false, if_true, ne_eq, not_false_eq_true]
      exact ⟨trivial, by decide, fun _ => trivial⟩

/-- The add-then-lookup theorem applied to the three-student store. -/
theorem add_then_lookup_witness :
    demo_store.students.length < MAX_STUDENTS ∧ ['S', '9'] ≠ [] ∧ ['D', 'a', 'n'] ≠ [] ∧
    (0 : Int) ≤ 55 ∧ (55 : Int) ≤ 100 ∧ ['S', '9'] ∉ keys demo_store ∧
    lookup_student (add_student_one demo_store ['S', '9'] ['D', 'a', 'n'] (some 55)).1 ['S', '9'] =
      some { sap := ['S', '9'], name := ['D', 'a', 'n'], marks := 55, allocated_batch := -1 } :=
  ⟨by decide, by decide, by decide, by decide, by decide, by decide,
    (add_then_lookup demo_store ['S', '9'] ['D', 'a', 'n'] 55 (by decide) (by decide) (by decide)
      (by decide) (by decide) (by decide)).2.2.2.2.1⟩

/-! ## The loops of `delete_student` as list operations -/

theorem shift_left_length {α : Type} :
    ∀ (n k : Nat) (a : List α), (shift_left n k a).length = a.length := by
  intro n
  induction n with
  | zero => intro k a; rfl
  | succ n ih =>
    intro k a
    simp only [shift_left]
    cases a[k + 1]? with
    | none => exact ih _ _
    | some v => simp only [ih, List.length_set]

theorem shift_left_getElem? {α : Type} :
    ∀ (n k : Nat) (a : List α), k + n < a.length → ∀ (i : Nat),
      (shift_left n k a)[i]? = if k ≤ i ∧ i < k + n then a[i + 1]? else a[i]? := by
  intro n
  induction n with
  | zero =>
    intro k a _ i
    have : ¬ (k ≤ i ∧ i < k + 0) := by omega
    simp only [shift_left, this, if_false]
  | succ n ih =>
    intro k a h i
    have hk1 : k + 1 < a.length := by omega
    simp only [shift_left, List.getElem?_eq_getElem hk1]
    rw [ih (k + 1) _ (by simp only [List.length_set]; omega) i]
    by_cases h1 : k + 1 ≤ i ∧ i < k + 1 + n
    · have h2 : k ≤ i ∧ i < k + (n + 1) := by omega
      simp only [h1, h2, and_self, if_true]
      exact List.getElem?_set_ne (by omega)
    · simp only [h1, if_false]
      by_cases hik : i = k
      · subst hik
        have h2 : i ≤ i ∧ i < i + (n + 1) := by omega
        simp only [h2, and_self, if_true]
        rw [List.getElem?_set, if_pos rfl, if_pos (by omega)]
        exact (List.getElem?_eq_getElem hk1).symm
      · have h2 : ¬ (k ≤ i ∧ i < k + (n + 1)) := by omega
        simp only [h2, if_false]
        exact List.getElem?_set_ne (fun e => hik e.symm)

/-- Shifting the cells `j+1 .. n-1` one place left and looking at the first `n-1`
cells is erasing cell `j` from the first `n` cells. -/
theorem shift_left_take {α : Type} (a : List α) (n j : Nat) (hn : n ≤ a.length) (hj : j < n) :
    (shift_left (n - 1 - j) j a).take (n - 1) = (a.take n).eraseIdx j := by
  apply List.ext_getElem?
  intro i
  rw [List.getElem?_take, List.getElem?_eraseIdx, List.getElem?_take, List.getElem?_take,
    shift_left_getElem? _ _ _ (by omega)]
  by_cases hi : i < n - 1
  · have hi1 : i < n := by omega
    have hi2 : i + 1 < n := by omega
    simp only [hi, hi1, hi2, if_true]
    by_cases hij : i < j
    · have : ¬ (j ≤ i ∧ i < j + (n - 1 - j)) := by omega
      simp only [hij, this, if_true, if_false]
    · have : j ≤ i ∧ i < j + (n - 1 - j) := by omega
      simp only [hij, this, and_self, if_true, if_false]
  · simp only [hi, if_false]
    by_cases hij : i < j
    · omega
    · have : ¬ (i + 1 < n) := by omega
      simp only [hij, this, if_false]

theorem shift_left_eraseIdx {α : Type} (a : List α) (k : Nat) (hk : k < a.length) :
    (shift_left (a.length - 1 - k) k a).take (a.length - 1) = a.eraseIdx k := by
  have := shift_left_take a a.length k (le_refl _) hk
  rw [List.take_length] at this
  exact this

theorem find_member_spec (idx : Int) :
    ∀ (n : Nat) (ms : List Int),
      (find_member idx n ms = none ∧ idx ∉ ms.take n) ∨
      (∃ j, find_member idx n ms = some j ∧ j < n ∧ ms[j]? = some idx ∧
        ∀ j', j' < j → ms[j']? ≠ some idx) := by
  intro n
  induction n with
  | zero => intro ms; left; simp [find_member]
  | succ n ih =>
    intro ms
    cases ms with
    | nil => left; simp [find_member]
    | cons m rest =>
      by_cases hm : m = idx
      · right
        exact ⟨0, by simp [find_member, hm], by omega, by simp [hm], fun j' h => by omega⟩
      · rcases ih rest with ⟨h1, h2⟩ | ⟨j, h1, h2, h3, h4⟩
        · left
          refine ⟨by simp [find_member, hm, h1], ?_⟩
          simp only [List.take_succ_cons, List.mem_cons, not_or]
          exact ⟨fun e => hm e.symm, h2⟩
        · right
          refine ⟨j + 1, by simp [find_member, hm, h1], by omega, by simpa using h3, ?_⟩
          intro j' hj'
          cases j' with
          | zero => simp; exact hm
          | succ k => simpa using h4 k (by omega)

theorem erase_eq_eraseIdx_first (a : Int) :
    ∀ (l : List Int) (j : Nat), l[j]? = some a → (∀ j', j' < j → l[j']? ≠ some a) →
      l.erase a = l.eraseIdx j := by
  intro l
  induction l with
  | nil => intro j h; simp at h
  | cons b rest ih =>
    intro j h hfirst
    cases j with
    | zero =>
      simp only [List.getElem?_cons_zero, Option.some.injEq] at h
      subst h
      simp
    | succ k =>
      have hb : b ≠ a := by
        have := hfirst 0 (by omega)
        simpa using this
      simp only [List.getElem?_cons_succ] at h
      have := ih k h (fun j' hj' => by simpa using hfirst (j' + 1) (by omega))
      rw [List.erase_cons_tail (by simpa using hb), List.eraseIdx_cons_succ, this]

theorem dec_above_eq (idx : Int) :
    ∀ (n : Nat) (ms : List Int),
      dec_above idx n ms = (ms.take n).map (reindex idx) ++ ms.drop n := by
  intro n
  induction n with
  | zero => intro ms; simp [dec_above]
  | succ n ih =>
    intro ms
    cases ms with
    | nil => simp [dec_above]
    | cons m rest => simp [dec_above, ih, reindex]

/-- What `delete_student` does to one well-formed batch: the removed index
leaves the occupied cells, the indices above it drop by one, and `filled` drops
by one exactly when the index was there. -/
theorem delete_in_batch_spec (idx : Int) (b : Batch) (h0 : 0 ≤ b.filled)
    (hlen : b.filled.toNat ≤ b.members.length) :
    (delete_in_batch idx b).live = (b.live.erase idx).map (reindex idx) ∧
    (delete_in_batch idx b).filled = (if idx ∈ b.live then b.filled - 1 else b.filled) ∧
    (delete_in_batch idx b).capacity = b.capacity ∧
    (delete_in_batch idx b).name = b.name ∧
    (delete_in_batch idx b).members.length = b.members.length := by
  rcases find_member_spec idx b.filled.toNat b.members with ⟨h1, h2⟩ | ⟨j, h1, h2, h3, h4⟩
  · have hni : idx ∉ b.live := h2
    simp only [delete_in_batch, h1, Batch.live, dec_above_eq]
    refine ⟨?_, by simp only [Batch.live] at hni; simp [hni], trivial, trivial, ?_⟩
    · rw [List.erase_of_not_mem h2]
      rw [List.take_append_of_le_length (by simp; omega)]
      rw [List.take_of_length_le (by simp)]
    · simp; omega
  · have hmem : idx ∈ b.live := by
      apply List.getElem?_mem (n := j)
      simp only [Batch.live]
      rw [List.getElem?_take_of_lt h2]; exact h3
    have hfn : (b.filled - 1).toNat = b.filled.toNat - 1 := by omega
    simp only [delete_in_batch, h1, Batch.live, dec_above_eq, hfn]
    refine ⟨?_, by simp only [Batch.live] at hmem; simp [hmem], trivial, trivial, ?_⟩
    · rw [List.take_append_of_le_length (by simp [shift_left_length]; omega)]
      rw [List.take_of_length_le (by simp)]
      rw [shift_left_take _ _ _ hlen h2]
      rw [erase_eq_eraseIdx_first idx (b.members.take b.filled.toNat) j
        (by rw [List.getElem?_take_of_lt h2]; exact h3)
        (fun j' hj' => by rw [List.getElem?_take_of_lt (by omega)]; exact h4 j' hj')]
    · simp [shift_left_length]; omega

/-! ## Deletion and reindexing -/

theorem lookup_of_unique (s : Store) (hu : UniqueKeys s) (i : Nat) (st : Student)
    (hi : s.students[i]? = some st) : lookup_student s st.sap = some st := by
  unfold lookup_student
  simp only [find_of_unique s hu i st hi]
  have : ¬ ((i : Int) = -1) := by omega
  simp only [this, if_false, Int.toNat_ofNat, hi]

theorem wf_live_bounds {s : Store} (hc : Consistent s) {bi : Nat} {b : Batch}
    (hb : s.batches[bi]? = some b) : 0 ≤ b.filled ∧ b.filled.toNat ≤ b.members.length := by
  obtain ⟨h1, h2, h3⟩ := hc.wf bi b hb
  exact ⟨h1, by omega⟩

/-- The state after a successful `delete_student`, in list form. -/
theorem delete_student_found (s : Store) (k : List Char) (j : Nat)
    (hj : find_student_by_sap s k = (j : Int)) (hjl : j < s.students.length) :
    delete_student s k =
      ({ students := s.students.eraseIdx j, batches := s.batches.map (delete_in_batch (j : Int)) },
        DeleteMsg.deleted) := by
  unfold delete_student
  have : ¬ ((j : Int) = -1) := by omega
  simp only [hj, this, if_false, Int.toNat_ofNat, shift_left_eraseIdx _ _ hjl]

theorem eraseIdx_reindex (l : List Student) (j : Nat) (m : Int) (hm : 0 ≤ m) (hne : m ≠ (j : Int)) :
    (l.eraseIdx j)[(reindex (j : Int) m).toNat]? = l[m.toNat]? := by
  rw [List.getElem?_eraseIdx]
  unfold reindex
  by_cases h : m > (j : Int)
  · have h1 : ¬ ((m - 1).toNat < j) := by omega
    have h2 : (m - 1).toNat + 1 = m.toNat := by omega
    simp only [h, if_true, h1, if_false, h2]
  · have h1 : m.toNat < j := by omega
    simp only [h, if_false, h1, if_true]

theorem filterMap_filter_comm {α β : Type} [DecidableEq α] [DecidableEq β] (f : α → Option β)
    (a : α) (k : β) :
    ∀ (L : List α), (∀ m ∈ L, (f m = some k ↔ m = a)) →
      (L.filter (fun m => decide (m ≠ a))).filterMap f =
        (L.filterMap f).filter (fun x => decide (x ≠ k)) := by
  intro L
  induction L with
  | nil => intro _; rfl
  | cons m rest ih =>
    intro h
    have hm := h m (List.mem_cons_self _ _)
    have ih' := ih (fun x hx => h x (List.mem_cons_of_mem _ hx))
    by_cases hma : m = a
    · have hf : f m = some k := hm.mpr hma
      have e1 : (m :: rest).filter (fun m => decide (m ≠ a)) =
          rest.filter (fun m => decide (m ≠ a)) := by
        rw [List.filter_cons]; simp [hma]
      have e2 : ((m :: rest).filterMap f).filter (fun x => decide (x ≠ k)) =
          (rest.filterMap f).filter (fun x => decide (x ≠ k)) := by
        rw [List.filterMap_cons_some hf, List.filter_cons]; simp
      rw [e1, e2, ih']
    · have hf : f m ≠ some k := fun e => hma (hm.mp e)
      have e1 : (m :: rest).filter (fun m => decide (m ≠ a)) =
          m :: rest.filter (fun m => decide (m ≠ a)) := by
        rw [List.filter_cons]; simp [hma]
      cases hfm : f m with
      | none =>
        rw [e1, List.filterMap_cons_none hfm, List.filterMap_cons_none hfm, ih']
      | some x =>
        have hxk : x ≠ k := fun e => hf (by rw [hfm, e])
        rw [e1, List.filterMap_cons_some hfm, List.filterMap_cons_some hfm, List.filter_cons, ih']
        simp [hxk]

theorem unique_keys_eraseIdx (s : Store) (hu : UniqueKeys s) (j : Nat) (bs : List Batch) :
    UniqueKeys { students := s.students.eraseIdx j, batches := bs } := by
  unfold UniqueKeys keys at hu ⊢
  exact List.Nodup.sublist ((List.eraseIdx_sublist s.students j).map _) hu

/-- With unique keys, the record at a valid member cell has key `k` exactly when
the cell holds the index found for `k`. -/
theorem member_key_eq_iff (s : Store) (hu : UniqueKeys s) (k : List Char) (j : Nat)
    (stk : Student) (hj : s.students[j]? = some stk) (hk : stk.sap = k) (m : Int) (hm : 0 ≤ m)
    (hv : ∃ st, s.students[m.toNat]? = some st) : member_key s m = some k ↔ m = (j : Int) := by
  obtain ⟨st, hst⟩ := hv
  simp only [member_key, hm, if_true, hst, Option.map_some', Option.some.injEq]
  constructor
  · intro e
    have h1 := find_of_unique s hu m.toNat st hst
    have h2 := find_of_unique s hu j stk hj
    rw [e, ← hk, h2] at h1
    omega
  · intro e
    subst e
    simp only [Int.toNat_ofNat] at hst
    rw [hj] at hst; cases hst; exact hk

/-- C5: deletion reindexing.  For a consistent store with unique keys and a
present key `k`, found at index `j` with record `stk`: `delete_student` reports
success; the student array is the old one with cell `j` removed (the other
records unchanged and in the same order); every other record is still returned
by the lookup of its key; and every batch keeps its place, name and capacity,
its list of member keys (the occupied cells resolved through the student
array) is the old list with `k` removed, and its `filled` drops by one exactly
when it is the batch that held `k`. -/
theorem delete_reindexing (s : Store) (k : List Char) (hc : Consistent s) (hu : UniqueKeys s)
    (hk : k ∈ keys s) :
    ∃ (j : Nat) (stk : Student), find_student_by_sap s k = (j : Int) ∧
      s.students[j]? = some stk ∧ stk.sap = k ∧
      (delete_student s k).2 = DeleteMsg.deleted ∧
      (delete_student s k).1.students = s.students.eraseIdx j ∧
      (∀ st ∈ s.students, st.sap ≠ k → lookup_student (delete_student s k).1 st.sap = some st) ∧
      (delete_student s k).1.batches.length = s.batches.length ∧
      (∀ (bi : Nat) (b : Batch), s.batches[bi]? = some b →
        ∃ b', (delete_student s k).1.batches[bi]? = some b' ∧
          member_keys (delete_student s k).1 b' =
            (member_keys s b).filter (fun x => decide (x ≠ k)) ∧
          b'.filled = (if stk.allocated_batch = (bi : Int) then b.filled - 1 else b.filled) ∧
          (k ∈ member_keys s b ↔ stk.allocated_batch = (bi : Int)) ∧
          b'.capacity = b.capacity ∧ b'.name = b.name) := by
  have hne : find_student_by_sap s k ≠ -1 := fun h => (find_eq_neg_one_iff s k).mp h hk
  obtain ⟨j, stk, hj, hstk, hsap, _⟩ := find_some s k hne
  have hjl : j < s.students.length := (List.getElem?_eq_some_iff.mp hstk).1
  have hdel := delete_student_found s k j hj hjl
  refine ⟨j, stk, hj, hstk, hsap, by rw [hdel], by rw [hdel], ?_, by rw [hdel]; simp, ?_⟩
  · intro st hst hstk'
    rw [hdel]
    simp only
    have hu' := unique_keys_eraseIdx s hu j (s.batches.map (delete_in_batch (j : Int)))
    obtain ⟨i, hi⟩ := List.mem_iff_getElem?.mp hst
    have hij : i ≠ j := by
      intro e; subst e; rw [hstk] at hi; cases hi; exact hstk' hsap
    have hmem : st ∈ s.students.eraseIdx j :=
      List.mem_eraseIdx_iff_getElem?.mpr ⟨i, hij, hi⟩
    obtain ⟨i', hi'⟩ := List.mem_iff_getElem?.mp hmem
    exact lookup_of_unique _ hu' i' st hi'
  · intro bi b hb
    rw [hdel]
    simp only
    refine ⟨delete_in_batch (j : Int) b, by simp [hb], ?_⟩
    obtain ⟨hf0, hflen⟩ := wf_live_bounds hc hb
    obtain ⟨hlive, hfilled, hcap, hname, _⟩ := delete_in_batch_spec (j : Int) b hf0 hflen
    have hnd := hc.nodup bi b hb
    have hmemiff : (j : Int) ∈ b.live ↔ stk.allocated_batch = (bi : Int) := by
      constructor
      · intro hm
        obtain ⟨_, st, hst, hab⟩ := hc.member bi b _ hb hm
        simp only [Int.toNat_ofNat] at hst
        rw [hstk] at hst; cases hst; exact hab
      · intro hab
        obtain ⟨b2, hb2, hm⟩ := hc.assigned j stk hstk (by rw [hab]; omega)
        rw [hab] at hb2
        simp only [Int.toNat_ofNat] at hb2
        rw [hb] at hb2; cases hb2; exact hm
    have hkeyiff : ∀ m ∈ b.live, (member_key s m = some k ↔ m = (j : Int)) := by
      intro m hm
      obtain ⟨hm0, st, hst, _⟩ := hc.member bi b m hb hm
      exact member_key_eq_iff s hu k j stk hstk hsap m hm0 ⟨st, hst⟩
    refine ⟨?_, ?_, ?_, hcap, hname⟩
    · unfold member_keys
      rw [hlive, List.filterMap_map, List.Nodup.erase_eq_filter hnd]
      have hcongr : (b.live.filter (fun x => x != (j : Int))).filterMap
            (member_key { students := s.students.eraseIdx j,
                          batches := s.batches.map (delete_in_batch (j : Int)) } ∘
              reindex (j : Int)) =
          (b.live.filter (fun x => x != (j : Int))).filterMap (member_key s) := by
        apply List.filterMap_congr
        intro m hm
        obtain ⟨hm1, hm2⟩ := List.mem_filter.mp hm
        have hmj : m ≠ (j : Int) := by simpa using hm2
        obtain ⟨hm0, _⟩ := hc.member bi b m hb hm1
        have hr0 : 0 ≤ reindex (j : Int) m := by
          unfold reindex; split <;> omega
        simp only [Function.comp, member_key, hr0, hm0, if_true]
        rw [eraseIdx_reindex s.students j m hm0 hmj]
      rw [hcongr]
      have := filterMap_filter_comm (member_key s) (j : Int) k b.live hkeyiff
      simpa using this
    · rw [hfilled]
      by_cases hm : (j : Int) ∈ b.live
      · simp only [hm, if_true, hmemiff.mp hm]
      · have : ¬ stk.allocated_batch = (bi : Int) := fun e => hm (hmemiff.mpr e)
        simp only [hm, this, if_false]
    · rw [← hmemiff]
      unfold member_keys
      constructor
      · intro hkm
        obtain ⟨m, hm, hfm⟩ := List.mem_filterMap.mp hkm
        have := (hkeyiff m hm).mp hfm
        rw [← this]; exact hm
      · intro hm
        exact List.mem_filterMap.mpr ⟨_, hm, (hkeyiff _ hm).mpr rfl⟩

theorem paired_store_consistent : Consistent paired_store := by
  constructor
  · intro bi b hb
    rcases bi with _ | bi
    · simp [paired_store] at hb; subst hb; decide
    · simp [paired_store] at hb
  · intro bi b m hb hm
    rcases bi with _ | bi
    · simp [paired_store] at hb; subst hb
      simp [Batch.live] at hm
      rcases hm with rfl | rfl
      · exact ⟨by decide, _, rfl, rfl⟩
      · exact ⟨by decide, _, rfl, rfl⟩
    · simp [paired_store] at hb
  · intro i st hi hab
    rcases i with _ | _ | _ | i
    · simp [paired_store] at hi; subst hi
      exact ⟨_, rfl, by decide⟩
    · simp [paired_store] at hi; subst hi
      exact ⟨_, rfl, by decide⟩
    · simp [paired_store] at hi; subst hi
      simp at hab
    · simp [paired_store] at hi
  · intro bi b hb
    rcases bi with _ | bi
    · simp [paired_store] at hb; subst hb; decide
    · simp [paired_store] at hb

/-- The deletion theorem applied to the removal of the first of three students,
the second being a member of the batch. -/
theorem delete_reindexing_witness :
    Consistent paired_store ∧ UniqueKeys paired_store ∧ ['S', '1'] ∈ keys paired_store ∧
    ∃ (j : Nat) (stk : Student), find_student_by_sap paired_store ['S', '1'] = (j : Int) ∧
      paired_store.students[j]? = some stk ∧ stk.sap = ['S', '1'] ∧
      (delete_student paired_store ['S', '1']).2 = DeleteMsg.deleted ∧
      (delete_student paired_store ['S', '1']).1.students = paired_store.students.eraseIdx j ∧
      (∀ st ∈ paired_store.students, st.sap ≠ ['S', '1'] →
        lookup_student (delete_student paired_store ['S', '1']).1 st.sap = some st) ∧
      (delete_student paired_store ['S', '1']).1.batches.length = paired_store.batches.length ∧
      (∀ (bi : Nat) (b : Batch), paired_store.batches[bi]? = some b →
        ∃ b', (delete_student paired_store ['S', '1']).1.batches[bi]? = some b' ∧
          member_keys (delete_student paired_store ['S', '1']).1 b' =
            (member_keys paired_store b).filter (fun x => decide (x ≠ ['S', '1'])) ∧
          b'.filled = (if stk.allocated_batch = (bi : Int) then b.filled - 1 else b.filled) ∧
          (['S', '1'] ∈ member_keys paired_store b ↔ stk.allocated_batch = (bi : Int)) ∧
          b'.capacity = b.capacity ∧ b'.name = b.name) :=
  ⟨paired_store_consistent, by unfold UniqueKeys; decide, by decide,
    delete_reindexing paired_store ['S', '1'] paired_store_consistent
      (by unfold UniqueKeys; decide) (by decide)⟩

/-! ## Consistency is preserved by every operation -/

theorem push_live (b : Batch) (x : Int) (h0 : 0 ≤ b.filled) (hlen : b.filled.toNat < b.members.length) :
    (b.push x).live = b.live ++ [x] := by
  have e : (b.filled + 1).toNat = b.filled.toNat + 1 := by omega
  simp only [Batch.live, Batch.push, e, List.take_succ]
  rw [take_set_of_le x b.members (le_refl _), List.getElem?_set, if_pos rfl, if_pos hlen]
  rfl

/-- A student whose `allocated_batch` is negative occupies no cell. -/
theorem fresh_not_member {s : Store} (hc : Consistent s) {x : Int} {stx : Student}
    (hstx : s.students[x.toNat]? = some stx) (hfresh : stx.allocated_batch < 0)
    {bi : Nat} {b : Batch} (hb : s.batches[bi]? = some b) : x ∉ b.live := by
  intro hm
  obtain ⟨_, st, hst, hab⟩ := hc.member bi b x hb hm
  rw [hstx] at hst; cases hst
  omega

theorem place_consistent (s : Store) (bi : Nat) (x : Int) (hc : Consistent s) (b0 : Batch)
    (hb0 : s.batches[bi]? = some b0) (hroom : b0.filled < b0.capacity) (hx0 : 0 ≤ x)
    (stx : Student) (hstx : s.students[x.toNat]? = some stx) (hfresh : stx.allocated_batch < 0) :
    Consistent (place s bi x) := by
  obtain ⟨w1, w2, w3⟩ := hc.wf bi b0 hb0
  have hlive0 : (b0.push x).live = b0.live ++ [x] := push_live b0 x w1 (by omega)
  have hbat : ∀ (i : Nat) (b : Batch), (place s bi x).batches[i]? = some b →
      (i = bi ∧ b = b0.push x) ∨ (i ≠ bi ∧ s.batches[i]? = some b) := by
    intro i b hb
    rw [place_batches_getElem?] at hb
    cases hi : s.batches[i]? with
    | none => rw [hi] at hb; cases hb
    | some c =>
      rw [hi] at hb
      simp only [Option.map_some', Option.some.injEq] at hb
      by_cases hbi : bi = i
      · subst hbi
        rw [hb0] at hi; cases hi
        simp only [if_true] at hb
        exact Or.inl ⟨rfl, hb.symm⟩
      · simp only [hbi, if_false] at hb
        exact Or.inr ⟨fun e => hbi e.symm, by rw [hb]⟩
  have hstu : ∀ (i : Nat), (place s bi x).students[i]? =
      if x.toNat = i then some { stx with allocated_batch := (bi : Int) } else s.students[i]? := by
    intro i
    rw [place_students_getElem?]
    by_cases hi : x.toNat = i
    · subst hi; simp [hstx]
    · simp only [hi, if_false]
      cases s.students[i]? with
      | none => rfl
      | some a => rfl
  constructor
  · intro i b hb
    rcases hbat i b hb with ⟨_, rfl⟩ | ⟨_, hb'⟩
    · simp only [Batch.push, List.length_set]
      exact ⟨by omega, by omega, w3⟩
    · exact hc.wf i b hb'
  · intro i b m hb hm
    rcases hbat i b hb with ⟨rfl, rfl⟩ | ⟨_, hb'⟩
    · rw [hlive0] at hm
      rcases List.mem_append.mp hm with hm | hm
      · obtain ⟨hm0, st, hst, hab⟩ := hc.member i b0 m hb0 hm
        have hmx : m ≠ x := fun e => fresh_not_member hc hstx hfresh hb0 (e ▸ hm)
        refine ⟨hm0, st, ?_, hab⟩
        rw [hstu]
        have : ¬ x.toNat = m.toNat := by omega
        simp only [this, if_false]; exact hst
      · simp only [List.mem_singleton] at hm
        subst hm
        exact ⟨hx0, { stx with allocated_batch := (i : Int) }, by rw [hstu]; simp, rfl⟩
    · obtain ⟨hm0, st, hst, hab⟩ := hc.member i b m hb' hm
      have hmx : m ≠ x := fun e => fresh_not_member hc hstx hfresh hb' (e ▸ hm)
      refine ⟨hm0, st, ?_, hab⟩
      rw [hstu]
      have : ¬ x.toNat = m.toNat := by omega
      simp only [this, if_false]; exact hst
  · intro i st hi hab
    rw [hstu] at hi
    by_cases hxi : x.toNat = i
    · simp only [hxi, if_true, Option.some.injEq] at hi
      subst hi
      simp only [Int.toNat_ofNat]
      refine ⟨b0.push x, by rw [place_batches_getElem?, hb0]; simp, ?_⟩
      rw [hlive0, ← hxi, Int.toNat_of_nonneg hx0]
      simp
    · simp only [hxi, if_false] at hi
      obtain ⟨b, hb, hm⟩ := hc.assigned i st hi hab
      by_cases hbi : bi = st.allocated_batch.toNat
      · rw [← hbi, hb0] at hb; cases hb
        refine ⟨b0.push x, by rw [place_batches_getElem?, ← hbi, hb0]; simp, ?_⟩
        rw [hlive0]; exact List.mem_append_left _ hm
      · refine ⟨b, by rw [place_batches_getElem?, hb]; simp [hbi], hm⟩
  · intro i b hb
    rcases hbat i b hb with ⟨rfl, rfl⟩ | ⟨_, hb'⟩
    · rw [hlive0]
      have hnd := hc.nodup i b0 hb0
      have hx : x ∉ b0.live := fun hm => fresh_not_member hc hstx hfresh hb0 hm
      exact List.Nodup.append hnd (List.nodup_singleton x) (by simpa using hx)
    · exact hc.nodup i b hb'

theorem reset_consistent (s : Store)
    (hwf : ∀ (bi : Nat) (b : Batch), s.batches[bi]? = some b →
      0 ≤ b.capacity ∧ b.members.length = b.capacity.toNat) :
    Consistent (reset_allocations s) := by
  have hb : ∀ (bi : Nat) (b : Batch), (reset_allocations s).batches[bi]? = some b →
      ∃ c, s.batches[bi]? = some c ∧ b = { c with filled := 0 } := by
    intro bi b h
    simp only [reset_allocations, List.getElem?_map] at h
    cases hi : s.batches[bi]? with
    | none => rw [hi] at h; cases h
    | some c => rw [hi] at h; cases h; exact ⟨c, rfl, rfl⟩
  constructor
  · intro bi b h
    obtain ⟨c, hc, rfl⟩ := hb bi b h
    obtain ⟨h1, h2⟩ := hwf bi c hc
    exact ⟨le_refl _, h1, h2⟩
  · intro bi b m h hm
    obtain ⟨c, _, rfl⟩ := hb bi b h
    simp [Batch.live] at hm
  · intro i st h hab
    simp only [reset_allocations, List.getElem?_map] at h
    cases hi : s.students[i]? with
    | none => rw [hi] at h; cases h
    | some a => rw [hi] at h; cases h; simp at hab
  · intro bi b h
    obtain ⟨c, _, rfl⟩ := hb bi b h
    simp [Batch.live]

theorem alloc_fold_consistent :
    ∀ (rest : List Int) (st : AllocState), Consistent st.store → rest.Nodup →
      (∀ x ∈ rest, 0 ≤ x → ∀ stx, st.store.students[x.toNat]? = some stx →
        stx.allocated_batch < 0) →
      Consistent (rest.foldl alloc_step st).store := by
  intro rest
  induction rest with
  | nil => intro st hc _ _; exact hc
  | cons x rest ih =>
    intro st hc hnd hfresh
    rw [List.foldl_cons]
    have hnd' := List.nodup_cons.mp hnd
    rcases alloc_step_cases st x with ⟨_, h1⟩ | ⟨_, _, _, _, h2⟩ | ⟨bi, _, hx0, hx1, hsc, h3⟩
    · rw [h1]
      exact ih st hc hnd'.2 (fun y hy => hfresh y (List.mem_cons_of_mem _ hy))
    · rw [h2]
      exact ih _ hc hnd'.2 (fun y hy => hfresh y (List.mem_cons_of_mem _ hy))
    · obtain ⟨k, b0, _, _, _, hb0, hroom, _⟩ := scan_some _ _ _ hsc
      have hxl : x.toNat < st.store.students.length := by omega
      have hstx := List.getElem?_eq_getElem hxl
      have hfx := hfresh x (List.mem_cons_self _ _) hx0 _ hstx
      have hc' := place_consistent st.store bi x hc b0 hb0 hroom hx0 _ hstx hfx
      rw [h3]
      apply ih _ hc' hnd'.2
      intro y hy hy0 sty hsty
      have hyx : y ≠ x := fun e => hnd'.1 (e ▸ hy)
      simp only [place_students_getElem?] at hsty
      cases hs : st.store.students[y.toNat]? with
      | none => rw [hs] at hsty; cases hsty
      | some a =>
        rw [hs] at hsty
        have hne : ¬ x.toNat = y.toNat := by omega
        simp only [Option.map_some', hne, if_false, Option.some.injEq] at hsty
        subst hsty
        exact hfresh y (List.mem_cons_of_mem _ hy) hy0 a hs

/-- The allocator establishes consistency from any store whose batch records are
well formed, for any duplicate-free order. -/
theorem allocate_consistent (s : Store) (order : List Int)
    (hwf : ∀ (bi : Nat) (b : Batch), s.batches[bi]? = some b →
      0 ≤ b.capacity ∧ b.members.length = b.capacity.toNat)
    (hnd : order.Nodup) : Consistent (allocate_from_order s order) := by
  apply alloc_fold_consistent order _ (reset_consistent s hwf) hnd
  intro x _ _ stx hstx
  simp only [reset_allocations, List.getElem?_map] at hstx
  cases hs : s.students[x.toNat]? with
  | none => rw [hs] at hstx; cases hstx
  | some a =>
    rw [hs] at hstx
    simp only [Option.map_some', Option.some.injEq] at hstx
    subst hstx
    show (-1 : Int) < 0
    decide

theorem allocate_keys (s : Store) (order : List Int) :
    keys (allocate_from_order s order) = keys s := by
  have h := congrArg (fun l => l.map (fun st : Student => st.sap))
    (alloc_run_reset_students s order)
  simp only [reset_allocations, List.map_map] at h
  exact h

/-! ### The orders produced by the strategies -/

theorem count_pos_of_getElem? {l : List Int} {i : Nat} {v : Int} (h : l[i]? = some v) :
    0 < l.count v :=
  List.count_pos_iff.mpr (List.getElem?_mem h)

theorem swap_cells_perm (l : List Int) (i j : Nat) : List.Perm (swap_cells l i j) l := by
  unfold swap_cells
  cases hi : l[i]? with
  | none => exact List.Perm.refl _
  | some vi =>
    cases hj : l[j]? with
    | none => exact List.Perm.refl _
    | some vj =>
      simp only
      have hil : i < l.length := (List.getElem?_eq_some_iff.mp hi).1
      have hjl : j < l.length := (List.getElem?_eq_some_iff.mp hj).1
      have hiv : l[i] = vi := by
        have := List.getElem?_eq_getElem hil
        rw [hi] at this; exact (Option.some.inj this).symm
      have hjv : l[j] = vj := by
        have := List.getElem?_eq_getElem hjl
        rw [hj] at this; exact (Option.some.inj this).symm
      by_cases hij : i = j
      · subst hij
        rw [hi] at hj; cases hj
        rw [set_eq_self_of_getElem? l i vi (fun _ => hi)]
        rw [set_eq_self_of_getElem? l i vi (fun _ => hi)]
      · rw [List.perm_iff_count]
        intro a
        have hjl' : j < (l.set i vj).length := by simpa using hjl
        rw [List.count_set _ _ _ _ hjl', List.count_set _ _ _ _ hil]
        have e1 : (l.set i vj)[j] = vj := by
          rw [List.getElem_set_ne hij]; exact hjv
        rw [e1, hiv]
        have hci := count_pos_of_getElem? hi
        have hcj := count_pos_of_getElem? hj
        by_cases ha1 : vi = a <;> by_cases ha2 : vj = a
        · subst ha1; subst ha2; simp; omega
        · subst ha1; simp [ha2]; omega
        · subst ha2; simp [ha1]
        · simp [ha1, ha2]

theorem shuffle_loop_perm (rand : Nat → Nat) :
    ∀ (i k : Nat) (l : List Int), List.Perm (shuffle_loop rand i k l) l := by
  intro i
  induction i with
  | zero => intro k l; exact List.Perm.refl _
  | succ i ih =>
    intro k l
    simp only [shuffle_loop]
    exact (ih _ _).trans (swap_cells_perm _ _ _)

theorem random_order_perm (rand : Nat → Nat) (n : Nat) :
    List.Perm (random_order rand n) (index_list n) :=
  shuffle_loop_perm rand _ _ _

theorem index_list_nodup (n : Nat) : (index_list n).Nodup :=
  List.Nodup.map (fun _ _ h => Int.ofNat.inj h) (List.nodup_range n)

theorem random_order_nodup (rand : Nat → Nat) (n : Nat) : (random_order rand n).Nodup :=
  (random_order_perm rand n).nodup_iff.mpr (index_list_nodup n)

/-- With unique keys, looking every record up by its key lists the indices
`0, 1, ..`. -/
theorem map_find_eq_range (s : Store) (hu : UniqueKeys s) :
    s.students.map (fun st => find_student_by_sap s st.sap) = index_list s.students.length := by
  apply List.ext_getElem?
  intro i
  simp only [index_list, List.getElem?_map]
  cases hi : s.students[i]? with
  | none =>
    have : s.students.length ≤ i := by
      by_contra hlt
      rw [List.getElem?_eq_getElem (by omega)] at hi; cases hi
    rw [List.getElem?_eq_none (by simpa using this)]
    rfl
  | some st =>
    have hil : i < s.students.length := (List.getElem?_eq_some_iff.mp hi).1
    rw [List.getElem?_range hil]
    simp only [Option.map_some', find_of_unique s hu i st hi]
    rfl

theorem sorted_order_nodup (qsort : Qsort) (hq : QsortPermutes qsort)
    (cmp : Student → Student → Int) (s : Store) (hu : UniqueKeys s) :
    ((qsort cmp s.students).map (fun st => find_student_by_sap s st.sap)).Nodup := by
  have hp := (hq cmp s.students).map (fun st => find_student_by_sap s st.sap)
  rw [map_find_eq_range s hu] at hp
  exact hp.nodup_iff.mpr (index_list_nodup _)

/-! ### The entity store operations -/

theorem map_modify_of_eq {α β : Type} (g : α → β) (f : α → α) (h : ∀ a, g (f a) = g a)
    (l : List α) (i : Nat) : (l.modify f i).map g = l.map g := by
  apply List.ext_getElem?
  intro j
  simp only [List.getElem?_map, List.getElem?_modify]
  cases l[j]? with
  | none => rfl
  | some a => by_cases hij : i = j <;> simp [hij, h]

/-- Consistency only looks at the batches and at the `allocated_batch` fields. -/
theorem consistent_of_same_links {s s' : Store} (hb : s'.batches = s.batches)
    (hs : s'.students.map (fun st => st.allocated_batch) =
      s.students.map (fun st => st.allocated_batch)) (hc : Consistent s) : Consistent s' := by
  have hget : ∀ (i : Nat) (st' : Student), s'.students[i]? = some st' →
      ∃ st, s.students[i]? = some st ∧ st.allocated_batch = st'.allocated_batch := by
    intro i st' h
    have := congrArg (fun l => l[i]?) hs
    simp only [List.getElem?_map, h, Option.map_some'] at this
    cases hi : s.students[i]? with
    | none => rw [hi] at this; cases this
    | some st =>
      rw [hi] at this
      simp only [Option.map_some', Option.some.injEq] at this
      exact ⟨st, rfl, this.symm⟩
  have hget' : ∀ (i : Nat) (st : Student), s.students[i]? = some st →
      ∃ st', s'.students[i]? = some st' ∧ st'.allocated_batch = st.allocated_batch := by
    intro i st h
    have := congrArg (fun l => l[i]?) hs
    simp only [List.getElem?_map, h, Option.map_some'] at this
    cases hi : s'.students[i]? with
    | none => rw [hi] at this; cases this
    | some st' =>
      rw [hi] at this
      simp only [Option.map_some', Option.some.injEq] at this
      exact ⟨st', rfl, this⟩
  constructor
  · intro bi b h; rw [hb] at h; exact hc.wf bi b h
  · intro bi b m h hm
    rw [hb] at h
    obtain ⟨hm0, st, hst, hab⟩ := hc.member bi b m h hm
    obtain ⟨st', hst', hab'⟩ := hget' _ st hst
    exact ⟨hm0, st', hst', by rw [hab', hab]⟩
  · intro i st' h hab
    obtain ⟨st, hst, e⟩ := hget i st' h
    rw [hb, ← e]
    exact hc.assigned i st hst (by rw [e]; exact hab)
  · intro bi b h; rw [hb] at h; exact hc.nodup bi b h

theorem update_student_links (s : Store) (sap newname : List Char) (nm : Option Int) :
    (update_student s sap newname nm).1.batches = s.batches ∧
    (update_student s sap newname nm).1.students.map (fun st => st.allocated_batch) =
      s.students.map (fun st => st.allocated_batch) ∧
    (update_student s sap newname nm).1.students.map (fun st => st.sap) =
      s.students.map (fun st => st.sap) := by
  have e1 : ∀ (l : List Student) (i : Nat) (nn : List Char),
      (l.modify (fun st => { st with name := nn }) i).map (fun st => st.allocated_batch) =
        l.map (fun st => st.allocated_batch) :=
    fun l i nn => map_modify_of_eq (fun st : Student => st.allocated_batch)
      (fun st => { st with name := nn }) (fun _ => rfl) l i
  have e2 : ∀ (l : List Student) (i : Nat) (m : Int),
      (l.modify (fun st => { st with marks := m }) i).map (fun st => st.allocated_batch) =
        l.map (fun st => st.allocated_batch) :=
    fun l i m => map_modify_of_eq (fun st : Student => st.allocated_batch)
      (fun st => { st with marks := m }) (fun _ => rfl) l i
  have e3 : ∀ (l : List Student) (i : Nat) (nn : List Char),
      (l.modify (fun st => { st with name := nn }) i).map (fun st => st.sap) =
        l.map (fun st => st.sap) :=
    fun l i nn => map_modify_of_eq (fun st : Student => st.sap)
      (fun st => { st with name := nn }) (fun _ => rfl) l i
  have e4 : ∀ (l : List Student) (i : Nat) (m : Int),
      (l.modify (fun st => { st with marks := m }) i).map (fun st => st.sap) =
        l.map (fun st => st.sap) :=
    fun l i m => map_modify_of_eq (fun st : Student => st.sap)
      (fun st => { st with marks := m }) (fun _ => rfl) l i
  unfold update_student
  simp only
  split
  · exact ⟨rfl, rfl, rfl⟩
  · split <;> split <;> (try split) <;> (try split) <;>
      simp only [e1, e2, e3, e4, and_self]

theorem add_student_inv (s : Store) (sap name : List Char) (marks : Option Int)
    (hc : Consistent s) (hu : UniqueKeys s) :
    Consistent (add_student_one s sap name marks).1 ∧
      UniqueKeys (add_student_one s sap name marks).1 := by
  unfold add_student_one
  split
  · exact ⟨hc, hu⟩
  · split
    · exact ⟨hc, hu⟩
    · split
      · exact ⟨hc, hu⟩
      · rename_i hfind
        have hnew : sap ∉ keys s := (find_eq_neg_one_iff s sap).mp (by simpa using hfind)
        split
        · exact ⟨hc, hu⟩
        · split
          · exact ⟨hc, hu⟩
          · split
            · exact ⟨hc, hu⟩
            · rename_i m _
              constructor
              · constructor
                · intro bi b h; exact hc.wf bi b h
                · intro bi b x h hx
                  obtain ⟨hx0, st, hst, hab⟩ := hc.member bi b x h hx
                  refine ⟨hx0, st, ?_, hab⟩
                  simp only
                  rw [List.getElem?_append_left (List.getElem?_eq_some_iff.mp hst).1]
                  exact hst
                · intro i st h hab
                  simp only at h
                  by_cases hi : i < s.students.length
                  · rw [List.getElem?_append_left hi] at h
                    exact hc.assigned i st h hab
                  · rw [List.getElem?_append_right (by omega)] at h
                    have hz : i - s.students.length = 0 := by
                      by_contra hne
                      rw [List.getElem?_eq_none (by simp; omega)] at h
                      cases h
                    rw [hz] at h
                    simp only [List.getElem?_cons_zero, Option.some.injEq] at h
                    subst h
                    simp at hab
                · intro bi b h; exact hc.nodup bi b h
              · unfold UniqueKeys keys at hu ⊢
                simp only [List.map_append, List.map_cons, List.map_nil]
                exact List.Nodup.append hu (List.nodup_singleton sap) (by simpa [keys] using hnew)

theorem add_batch_inv (s : Store) (name : List Char) (capacity : Option Int)
    (hc : Consistent s) (hu : UniqueKeys s) :
    Consistent (add_batch s name capacity).1 ∧ UniqueKeys (add_batch s name capacity).1 := by
  unfold add_batch
  split
  · exact ⟨hc, hu⟩
  · split
    · exact ⟨hc, hu⟩
    · split
      · exact ⟨hc, hu⟩
      · split
        · exact ⟨hc, hu⟩
        · rename_i c hcpos
          refine ⟨?_, hu⟩
          have hold : ∀ (bi : Nat) (b : Batch),
              (s.batches ++ [new_batch name c])[bi]? = some b →
              s.batches[bi]? = some b ∨ b = new_batch name c := by
            intro bi b h
            by_cases hi : bi < s.batches.length
            · rw [List.getElem?_append_left hi] at h; exact Or.inl h
            · rw [List.getElem?_append_right (by omega)] at h
              exact Or.inr (List.mem_singleton.mp (List.getElem?_mem h))
          constructor
          · intro bi b h
            rcases hold bi b h with h' | rfl
            · exact hc.wf bi b h'
            · simp [new_batch]; omega
          · intro bi b m h hm
            rcases hold bi b h with h' | rfl
            · exact hc.member bi b m h' hm
            · simp [Batch.live, new_batch] at hm
          · intro i st h hab
            obtain ⟨b, hb, hm⟩ := hc.assigned i st h hab
            refine ⟨b, ?_, hm⟩
            simp only
            rw [List.getElem?_append_left (List.getElem?_eq_some_iff.mp hb).1]
            exact hb
          · intro bi b h
            rcases hold bi b h with h' | rfl
            · exact hc.nodup bi b h'
            · simp [Batch.live, new_batch]

theorem reindex_inj (j x y : Int) (hx : x ≠ j) (hy : y ≠ j) (h : reindex j x = reindex j y) :
    x = y := by
  unfold reindex at h
  split at h <;> split at h <;> omega

theorem delete_student_inv (s : Store) (k : List Char) (hc : Consistent s) (hu : UniqueKeys s) :
    Consistent (delete_student s k).1 ∧ UniqueKeys (delete_student s k).1 := by
  by_cases hne : find_student_by_sap s k = -1
  · have : delete_student s k = (s, DeleteMsg.not_found) := by
      unfold delete_student; simp only [hne, if_true]
    rw [this]; exact ⟨hc, hu⟩
  · obtain ⟨j, stk, hj, hstk, hsap, _⟩ := find_some s k hne
    have hjl : j < s.students.length := (List.getElem?_eq_some_iff.mp hstk).1
    rw [delete_student_found s k j hj hjl]
    refine ⟨?_, unique_keys_eraseIdx s hu j _⟩
    have hbat : ∀ (bi : Nat) (b' : Batch),
        (s.batches.map (delete_in_batch (j : Int)))[bi]? = some b' →
        ∃ b, s.batches[bi]? = some b ∧ b' = delete_in_batch (j : Int) b := by
      intro bi b' h
      simp only [List.getElem?_map] at h
      cases hb : s.batches[bi]? with
      | none => rw [hb] at h; cases h
      | some b => rw [hb] at h; cases h; exact ⟨b, rfl, rfl⟩
    constructor
    · intro bi b' h
      obtain ⟨b, hb, rfl⟩ := hbat bi b' h
      obtain ⟨w1, w2, w3⟩ := hc.wf bi b hb
      obtain ⟨_, hfilled, hcap, _, hlen⟩ := delete_in_batch_spec (j : Int) b w1 (by omega)
      rw [hfilled, hcap, hlen]
      by_cases hm : (j : Int) ∈ b.live
      · have hpos : 0 < b.live.length := List.length_pos_of_mem hm
        have : b.live.length ≤ b.filled.toNat := by
          simp only [Batch.live, List.length_take]; omega
        simp only [hm, if_true]
        exact ⟨by omega, by omega, w3⟩
      · simp only [hm, if_false]
        exact ⟨w1, w2, w3⟩
    · intro bi b' m' h hm'
      obtain ⟨b, hb, rfl⟩ := hbat bi b' h
      obtain ⟨w1, w2, w3⟩ := hc.wf bi b hb
      obtain ⟨hlive, _⟩ := delete_in_batch_spec (j : Int) b w1 (by omega)
      rw [hlive] at hm'
      obtain ⟨m, hm, rfl⟩ := List.mem_map.mp hm'
      obtain ⟨hmj, hml⟩ := (List.Nodup.mem_erase_iff (hc.nodup bi b hb)).mp hm
      obtain ⟨hm0, st, hst, hab⟩ := hc.member bi b m hb hml
      refine ⟨by unfold reindex; split <;> omega, st, ?_, hab⟩
      simp only
      rw [eraseIdx_reindex s.students j m hm0 hmj]
      exact hst
    · intro i' st h hab
      simp only at h
      rw [List.getElem?_eraseIdx] at h
      by_cases hi : i' < j
      · simp only [hi, if_true] at h
        obtain ⟨b, hb, hm⟩ := hc.assigned i' st h hab
        obtain ⟨w1, w2, w3⟩ := hc.wf _ b hb
        obtain ⟨hlive, _⟩ := delete_in_batch_spec (j : Int) b w1 (by omega)
        refine ⟨delete_in_batch (j : Int) b, by simp [hb], ?_⟩
        rw [hlive]
        refine List.mem_map.mpr ⟨(i' : Int), ?_, ?_⟩
        · exact (List.Nodup.mem_erase_iff (hc.nodup _ b hb)).mpr ⟨by omega, hm⟩
        · unfold reindex; split <;> omega
      · simp only [hi, if_false] at h
        obtain ⟨b, hb, hm⟩ := hc.assigned (i' + 1) st h hab
        obtain ⟨w1, w2, w3⟩ := hc.wf _ b hb
        obtain ⟨hlive, _⟩ := delete_in_batch_spec (j : Int) b w1 (by omega)
        refine ⟨delete_in_batch (j : Int) b, by simp [hb], ?_⟩
        rw [hlive]
        refine List.mem_map.mpr ⟨((i' + 1 : Nat) : Int), ?_, ?_⟩
        · exact (List.Nodup.mem_erase_iff (hc.nodup _ b hb)).mpr ⟨by omega, hm⟩
        · unfold reindex; split <;> omega
    · intro bi b' h
      obtain ⟨b, hb, rfl⟩ := hbat bi b' h
      obtain ⟨w1, w2, w3⟩ := hc.wf bi b hb
      obtain ⟨hlive, _⟩ := delete_in_batch_spec (j : Int) b w1 (by omega)
      rw [hlive]
      have hnd := hc.nodup bi b hb
      apply List.Nodup.map_on _ (List.Nodup.erase _ hnd)
      intro x hx y hy hxy
      exact reindex_inj (j : Int) x y ((List.Nodup.mem_erase_iff hnd).mp hx).1
        ((List.Nodup.mem_erase_iff hnd).mp hy).1 hxy

theorem wf_of_consistent {s : Store} (hc : Consistent s) :
    ∀ (bi : Nat) (b : Batch), s.batches[bi]? = some b →
      0 ≤ b.capacity ∧ b.members.length = b.capacity.toNat := by
  intro bi b hb
  obtain ⟨w1, w2, w3⟩ := hc.wf bi b hb
  exact ⟨by omega, w3⟩

theorem allocation_sorted_inv (qsort : Qsort) (hq : QsortPermutes qsort)
    (cmp : Student → Student → Int) (s : Store) (hc : Consistent s) (hu : UniqueKeys s) :
    Consistent (allocation_sorted qsort cmp s) ∧ UniqueKeys (allocation_sorted qsort cmp s) := by
  unfold allocation_sorted
  split
  · exact ⟨hc, hu⟩
  · refine ⟨allocate_consistent s _ (wf_of_consistent hc) (sorted_order_nodup qsort hq cmp s hu), ?_⟩
    unfold UniqueKeys
    rw [allocate_keys]; exact hu

theorem allocation_random_inv (rand : Nat → Nat) (s : Store) (hc : Consistent s)
    (hu : UniqueKeys s) :
    Consistent (allocation_random rand s) ∧ UniqueKeys (allocation_random rand s) := by
  unfold allocation_random
  split
  · exact ⟨hc, hu⟩
  · refine ⟨allocate_consistent s _ (wf_of_consistent hc) (random_order_nodup rand _), ?_⟩
    unfold UniqueKeys
    rw [allocate_keys]; exact hu

theorem empty_consistent : Consistent emptyStore := by
  constructor
  · intro bi b h; simp [emptyStore] at h
  · intro bi b m h; simp [emptyStore] at h
  · intro i st h; simp [emptyStore] at h
  · intro bi b h; simp [emptyStore] at h

/-- Every store the menu can reach without loading a file is consistent and has
unique keys. -/
theorem reachable_inv (qsort : Qsort) (hq : QsortPermutes qsort) (s : Store)
    (hr : Reachable qsort s) : Consistent s ∧ UniqueKeys s := by
  induction hr with
  | start => exact ⟨empty_consistent, by simp [UniqueKeys, keys, emptyStore]⟩
  | add_student s sap name marks _ ih => exact add_student_inv s sap name marks ih.1 ih.2
  | update_student s sap newname nm _ ih =>
    obtain ⟨h1, h2, h3⟩ := update_student_links s sap newname nm
    refine ⟨consistent_of_same_links h1 h2 ih.1, ?_⟩
    unfold UniqueKeys keys
    rw [h3]; exact ih.2
  | delete_student s sap _ ih => exact delete_student_inv s sap ih.1 ih.2
  | add_batch s name capacity _ ih => exact add_batch_inv s name capacity ih.1 ih.2
  | by_marks s _ ih => exact allocation_sorted_inv qsort hq _ s ih.1 ih.2
  | alphabetical s reverse _ ih => exact allocation_sorted_inv qsort hq _ s ih.1 ih.2
  | by_sap s _ ih => exact allocation_sorted_inv qsort hq _ s ih.1 ih.2
  | random s rand _ ih => exact allocation_random_inv rand s ih.1 ih.2

theorem insertion_qsort_permutes : QsortPermutes insertion_qsort :=
  fun _ l => List.perm_insertionSort _ l

theorem demo_reached_reachable : Reachable insertion_qsort demo_reached :=
  Reachable.by_marks _
    (Reachable.add_batch _ _ _
      (Reachable.add_student _ _ _ _ (Reachable.add_student _ _ _ _ Reachable.start)))

/-- C4: bidirectional consistency is an invariant of the reachable stores.  For a
`qsort` that rearranges its input, in every store reached from the empty store
by `add_student_one`, `update_student`, `delete_student`, `add_batch` and the
five allocation strategies: a student with `allocated_batch >= 0` points to an
existing batch; the student at index `i` has `allocated_batch = bi` if and only
if `i` occurs among the first `filled` cells of `batches[bi].members`, and then
it occurs exactly once; every occupied cell holds a valid student index; and no
index occurs in the occupied cells of two different batches. -/
theorem reachable_bidirectional (qsort : Qsort) (hq : QsortPermutes qsort) (s : Store)
    (hr : Reachable qsort s) :
    (∀ (i : Nat) (st : Student), s.students[i]? = some st → 0 ≤ st.allocated_batch →
      ∃ b, s.batches[st.allocated_batch.toNat]? = some b) ∧
    (∀ (i : Nat) (st : Student) (bi : Nat) (b : Batch), s.students[i]? = some st →
      s.batches[bi]? = some b →
      (st.allocated_batch = (bi : Int) ↔ (i : Int) ∈ b.live) ∧
      ((i : Int) ∈ b.live → b.live.count (i : Int) = 1)) ∧
    (∀ (bi : Nat) (b : Batch) (m : Int), s.batches[bi]? = some b → m ∈ b.live →
      0 ≤ m ∧ m < s.students.length) ∧
    (∀ (bi bj : Nat) (b c : Batch) (m : Int), s.batches[bi]? = some b →
      s.batches[bj]? = some c → m ∈ b.live → m ∈ c.live → bi = bj) := by
  obtain ⟨hc, _⟩ := reachable_inv qsort hq s hr
  refine ⟨?_, ?_, ?_, ?_⟩
  · intro i st hi hab
    obtain ⟨b, hb, _⟩ := hc.assigned i st hi hab
    exact ⟨b, hb⟩
  · intro i st bi b hi hb
    constructor
    · constructor
      · intro hab
        obtain ⟨b2, hb2, hm⟩ := hc.assigned i st hi (by rw [hab]; omega)
        rw [hab] at hb2
        simp only [Int.toNat_ofNat] at hb2
        rw [hb] at hb2; cases hb2; exact hm
      · intro hm
        obtain ⟨_, st', hst', hab⟩ := hc.member bi b _ hb hm
        simp only [Int.toNat_ofNat] at hst'
        rw [hi] at hst'; cases hst'; exact hab
    · intro hm
      exact List.count_eq_one_of_mem (hc.nodup bi b hb) hm
  · intro bi b m hb hm
    obtain ⟨hm0, st, hst, _⟩ := hc.member bi b m hb hm
    have := (List.getElem?_eq_some_iff.mp hst).1
    exact ⟨hm0, by omega⟩
  · intro bi bj b c m hb hcj hm1 hm2
    obtain ⟨_, st, hst, hab⟩ := hc.member bi b m hb hm1
    obtain ⟨_, st', hst', hab'⟩ := hc.member bj c m hcj hm2
    rw [hst] at hst'; cases hst'
    omega

/-- The invariant applied to a store reached by two additions, a batch and an
allocation by marks. -/
theorem reachable_bidirectional_witness :
    QsortPermutes insertion_qsort ∧ Reachable insertion_qsort demo_reached ∧
    (∀ (i : Nat) (st : Student) (bi : Nat) (b : Batch), demo_reached.students[i]? = some st →
      demo_reached.batches[bi]? = some b →
      (st.allocated_batch = (bi : Int) ↔ (i : Int) ∈ b.live) ∧
      ((i : Int) ∈ b.live → b.live.count (i : Int) = 1)) :=
  ⟨insertion_qsort_permutes, demo_reached_reachable,
    (reachable_bidirectional insertion_qsort insertion_qsort_permutes demo_reached
      demo_reached_reachable).2.1⟩

/-! ## CSV save and load -/

/-- C7, evaluated on a key that contains a comma: `add_student_one` accepts the
key `A,B`; `save_csv` replaces commas in the name but writes the key as it is, so
the line is `A,B,Alice,90,-1`; `load_csv` reads back the key `A`, the name `B`,
the marks `0` and the batch index `90`. -/
theorem save_load_comma_key :
    (add_student_one emptyStore ['A', ',', 'B'] ['A', 'l', 'i', 'c', 'e'] (some 90)).2 =
      AddMsg.added ∧
    comma_key_store.students =
      [{ sap := ['A', ',', 'B'], name := ['A', 'l', 'i', 'c', 'e'], marks := 90,
         allocated_batch := -1 }] ∧
    save_csv comma_key_store = csv_header ++ "A,B,Alice,90,-1\n".toList ∧
    (load_csv comma_key_store (save_csv comma_key_store)).students =
      [{ sap := ['A'], name := ['B'], marks := 0, allocated_batch := 90 }] := by
  decide

theorem fgets_lines_aux_ne_nil (size : Nat) :
    ∀ (input cur : List Char), input ≠ [] ∨ cur ≠ [] → fgets_lines_aux size input cur ≠ [] := by
  intro input
  induction input with
  | nil =>
    intro cur h
    have hc : cur ≠ [] := by
      rcases h with h | h
      · exact absurd rfl h
      · exact h
    simp [fgets_lines_aux, hc]
  | cons c rest ih =>
    intro cur _
    simp only [fgets_lines_aux]
    split
    · simp
    · exact ih (c :: cur) (Or.inr (by simp))

/-- A line that is being read is at least as long as what has been read of it. -/
theorem text_lines_aux_first (rest : List Char) :
    ∀ (cur : List Char), cur ≠ [] → ∃ l ∈ text_lines_aux rest cur, cur.length ≤ l.length := by
  induction rest with
  | nil =>
    intro cur hc
    exact ⟨cur.reverse, by simp [text_lines_aux, hc], by simp⟩
  | cons c rest ih =>
    intro cur hc
    simp only [text_lines_aux]
    split
    · exact ⟨(c :: cur).reverse, by simp, by simp⟩
    · obtain ⟨l, hl, hlen⟩ := ih (c :: cur) (by simp)
      exact ⟨l, hl, by simp at hlen; omega⟩

/-- When every line fits the buffer, `fgets` returns the lines. -/
theorem fgets_lines_aux_eq_text_lines (size : Nat) :
    ∀ (input cur : List Char),
      (∀ l ∈ text_lines_aux input cur, l.length < size - 1) →
      fgets_lines_aux size input cur = text_lines_aux input cur := by
  intro input
  induction input with
  | nil => intro cur _; rfl
  | cons c rest ih =>
    intro cur h
    simp only [fgets_lines_aux, text_lines_aux] at h ⊢
    by_cases hc : c = '\n'
    · simp only [hc, true_or, if_true] at h ⊢
      rw [ih [] (fun l hl => h l (List.mem_cons_of_mem _ hl))]
    · simp only [hc, if_false, false_or] at h ⊢
      have hlen : ¬ cur.length + 1 = size - 1 := by
        obtain ⟨l, hl, hlen⟩ := text_lines_aux_first rest (c :: cur) (by simp)
        have := h l hl
        simp at hlen
        omega
      simp only [hlen, if_false]
      exact ih (c :: cur) h

/-- C8, as the code has it: `load_csv` on an empty file returns the store
unchanged; on any other file the batches become empty, the students are exactly
the records parsed from the buffers that `fgets` returns after the first one,
whatever the store was before; and when every line of the file is shorter than
`MAX_LINE_LEN - 1` those buffers are the lines of the file after the first. -/
theorem load_replaces_state (s : Store) (content : List Char) :
    (content = [] → load_csv s content = s) ∧
    (content ≠ [] →
      (load_csv s content).batches = [] ∧
      (load_csv s content).students =
        (fgets_lines MAX_LINE_LEN content).tail.filterMap parse_record ∧
      (∀ s' : Store, load_csv s' content = load_csv s content) ∧
      ((∀ l ∈ text_lines content, l.length < MAX_LINE_LEN - 1) →
        (load_csv s content).students = (text_lines content).tail.filterMap parse_record)) := by
  constructor
  · intro h; subst h; rfl
  · intro h
    have hne := fgets_lines_aux_ne_nil MAX_LINE_LEN content [] (Or.inl h)
    have hload : ∀ s' : Store, load_csv s' content =
        { students := (fgets_lines MAX_LINE_LEN content).tail.filterMap parse_record,
          batches := [] } := by
      intro s'
      unfold load_csv fgets_lines
      cases hl : fgets_lines_aux MAX_LINE_LEN content [] with
      | nil => exact absurd hl hne
      | cons b bufs => rfl
    refine ⟨by rw [hload], by rw [hload], fun s' => by rw [hload s', hload s], ?_⟩
    intro hshort
    rw [hload]
    simp only [fgets_lines, text_lines]
    rw [fgets_lines_aux_eq_text_lines MAX_LINE_LEN content [] hshort]

/-- C8 as stated fails on the empty file: the first `fgets` fails and
`load_csv` returns before it clears anything, so the two batches and the three
students of the prior store remain. -/
theorem load_empty_file_keeps_state :
    ¬ ((load_csv demo_store []).batches = [] ∧
        (load_csv demo_store []).students =
          (text_lines []).tail.filterMap parse_record) := by
  decide

/-- C9, evaluated: `load_csv` appends every record without the duplicate check
of `add_student_one`.  A file with two records of key `A` gives a store in which
two students have the key `A`; and the store built by adding the keys `A,1` and
`A,2`, which has unique keys, has after `save_csv` and `load_csv` two students
with the key `A`. -/
theorem load_duplicate_keys :
    keys (load_csv emptyStore duplicate_key_file) = [['A'], ['A']] ∧
    ¬ UniqueKeys (load_csv emptyStore duplicate_key_file) ∧
    UniqueKeys two_comma_keys_store ∧
    keys (load_csv two_comma_keys_store (save_csv two_comma_keys_store)) = [['A'], ['A']] ∧
    ¬ UniqueKeys (load_csv two_comma_keys_store (save_csv two_comma_keys_store)) := by
  unfold UniqueKeys
  decide

/-! ## Rejection of invalid additions -/

/-- The outcome of `add_student_one`, check by check. -/
theorem add_student_one_eval (s : Store) (sap name : List Char) (marks : Option Int) :
    (s.students.length ≥ MAX_STUDENTS ∧
      add_student_one s sap name marks = (s, AddMsg.database_full)) ∨
    (¬ s.students.length ≥ MAX_STUDENTS ∧ sap.length = 0 ∧
      add_student_one s sap name marks = (s, AddMsg.sap_empty)) ∨
    (¬ s.students.length ≥ MAX_STUDENTS ∧ ¬ sap.length = 0 ∧ find_student_by_sap s sap ≠ -1 ∧
      add_student_one s sap name marks = (s, AddMsg.sap_exists)) ∨
    (¬ s.students.length ≥ MAX_STUDENTS ∧ ¬ sap.length = 0 ∧ ¬ find_student_by_sap s sap ≠ -1 ∧
      name.length = 0 ∧ add_student_one s sap name marks = (s, AddMsg.name_empty)) ∨
    (¬ s.students.length ≥ MAX_STUDENTS ∧ ¬ sap.length = 0 ∧ ¬ find_student_by_sap s sap ≠ -1 ∧
      ¬ name.length = 0 ∧ marks = none ∧
      add_student_one s sap name marks = (s, AddMsg.invalid_marks)) ∨
    (∃ m, ¬ s.students.length ≥ MAX_STUDENTS ∧ ¬ sap.length = 0 ∧
      ¬ find_student_by_sap s sap ≠ -1 ∧ ¬ name.length = 0 ∧ marks = some m ∧
      (m < 0 ∨ m > 100) ∧ add_student_one s sap name marks = (s, AddMsg.marks_out_of_range)) ∨
    (∃ m, ¬ s.students.length ≥ MAX_STUDENTS ∧ ¬ sap.length = 0 ∧
      ¬ find_student_by_sap s sap ≠ -1 ∧ ¬ name.length = 0 ∧ marks = some m ∧
      ¬ (m < 0 ∨ m > 100) ∧
      add_student_one s sap name marks =
        ({ s with
           students := s.students ++
             [{ sap := sap, name := name, marks := m, allocated_batch := -1 }] },
          AddMsg.added)) := by
  unfold add_student_one
  by_cases h1 : s.students.length ≥ MAX_STUDENTS
  · left; exact ⟨h1, by simp only [h1, if_true]⟩
  · right
    by_cases h2 : sap.length = 0
    · left; exact ⟨h1, h2, by simp only [h1, h2, if_true, if_false]⟩
    · right
      by_cases h3 : find_student_by_sap s sap ≠ -1
      · left; exact ⟨h1, h2, h3, by simp [h1, h2, h3]⟩
      · right
        by_cases h4 : name.length = 0
        · left; exact ⟨h1, h2, h3, h4, by simp [h1, h2, h3, h4]⟩
        · right
          cases marks with
          | none => left; exact ⟨h1, h2, h3, h4, rfl, by simp [h1, h2, h3, h4]⟩
          | some m =>
            right
            by_cases h5 : m < 0 ∨ m > 100
            · left
              exact ⟨m, h1, h2, h3, h4, rfl, h5, by simp [h1, h2, h3, h4, h5]⟩
            · right
              exact ⟨m, h1, h2, h3, h4, rfl, h5, by simp [h1, h2, h3, h4, h5]⟩

/-- C11: `add_student_one` rejects invalid input atomically.  For scanned marks
`m` it does not report success if and only if the key is empty, the key is
already present, the name is empty, `m` is outside `[0, 100]`, or the store
already holds `MAX_STUDENTS = 1000` students (or more); and whenever it does not
report success, also when the marks could not be scanned, it returns the store
(students and batches) exactly as it was. -/
theorem add_student_rejects_atomically (s : Store) (sap name : List Char) :
    (∀ m : Int, ((add_student_one s sap name (some m)).2 ≠ AddMsg.added ↔
      (sap = [] ∨ sap ∈ keys s ∨ name = [] ∨ m < 0 ∨ 100 < m ∨
        MAX_STUDENTS ≤ s.students.length))) ∧
    (∀ marks : Option Int, (add_student_one s sap name marks).2 ≠ AddMsg.added →
      (add_student_one s sap name marks).1 = s) ∧
    MAX_STUDENTS = 1000 := by
  have hkey : find_student_by_sap s sap ≠ -1 ↔ sap ∈ keys s := by
    rw [ne_eq, find_eq_neg_one_iff]; exact not_not
  have hsap : sap.length = 0 ↔ sap = [] := List.length_eq_zero
  have hname : name.length = 0 ↔ name = [] := List.length_eq_zero
  refine ⟨?_, ?_, rfl⟩
  · intro m
    rcases add_student_one_eval s sap name (some m) with
      ⟨h1, e⟩ | ⟨_, h2, e⟩ | ⟨_, _, h3, e⟩ | ⟨_, _, _, h4, e⟩ | ⟨_, _, _, _, hm, e⟩ |
      ⟨m', _, _, _, _, hm, h5, e⟩ | ⟨m', h1, h2, h3, h4, hm, h5, e⟩
    · rw [e]
      exact ⟨fun _ => Or.inr (Or.inr (Or.inr (Or.inr (Or.inr h1)))), fun _ => by simp⟩
    · rw [e]
      exact ⟨fun _ => Or.inl (hsap.mp h2), fun _ => by simp⟩
    · rw [e]
      exact ⟨fun _ => Or.inr (Or.inl (hkey.mp h3)), fun _ => by simp⟩
    · rw [e]
      exact ⟨fun _ => Or.inr (Or.inr (Or.inl (hname.mp h4))), fun _ => by simp⟩
    · cases hm
    · cases hm
      rw [e]
      refine ⟨fun _ => ?_, fun _ => by simp⟩
      rcases h5 with h5 | h5
      · exact Or.inr (Or.inr (Or.inr (Or.inl h5)))
      · exact Or.inr (Or.inr (Or.inr (Or.inr (Or.inl h5))))
    · cases hm
      rw [e]
      constructor
      · intro h; exact absurd rfl h
      · intro h
        rcases h with h | h | h | h | h | h
        · exact absurd (hsap.mpr h) h2
        · exact absurd (hkey.mpr h) h3
        · exact absurd (hname.mpr h) h4
        · exact absurd (Or.inl h) h5
        · exact absurd (Or.inr h) h5
        · exact absurd h h1
  · intro marks h
    rcases add_student_one_eval s sap name marks with
      ⟨_, e⟩ | ⟨_, _, e⟩ | ⟨_, _, _, e⟩ | ⟨_, _, _, _, e⟩ | ⟨_, _, _, _, _, e⟩ |
      ⟨m', _, _, _, _, _, _, e⟩ | ⟨m', _, _, _, _, _, _, e⟩
    all_goals rw [e] at h ⊢
    · exact absurd rfl h

/-! ## Updating a student -/

theorem modify_eq_set_of_getElem? {α : Type} (f : α → α) (l : List α) (j : Nat) (a : α)
    (h : l[j]? = some a) : l.modify f j = l.set j (f a) := by
  apply List.ext_getElem?
  intro i
  rw [List.getElem?_modify, List.getElem?_set]
  have hj : j < l.length := (List.getElem?_eq_some_iff.mp h).1
  by_cases hij : j = i
  · subst hij; simp [h, hj]
  · simp only [hij, if_false]
    cases l[i]? with
    | none => rfl
    | some b => rfl

/-- C12, as the code has it: `update_student` is validated field by field, not
atomically.  For a present key, found at index `j` with record `stk`, the
batches are unchanged and the student array changes at most in cell `j`, where
the key and `allocated_batch` stay and only name and marks may change: a
non-empty new name (cut to `NAME_LEN - 1` characters) is stored whatever the
marks input is, and the marks are replaced exactly when the scanned value is in
`[0, 100]`.  A scanned value outside `[0, 100]` other than `-1` keeps the marks
and is reported as such, after the name has been applied. -/
theorem update_student_effect (s : Store) (k newname : List Char) (nm : Option Int)
    (hk : k ∈ keys s) :
    ∃ (j : Nat) (stk : Student), find_student_by_sap s k = (j : Int) ∧
      s.students[j]? = some stk ∧ stk.sap = k ∧
      (update_student s k newname nm).1.batches = s.batches ∧
      (update_student s k newname nm).1.students =
        s.students.set j
          { sap := stk.sap,
            name := if newname.length > 0 then newname.take (NAME_LEN - 1) else stk.name,
            marks := match nm with
              | some m => if 0 ≤ m ∧ m ≤ 100 then m else stk.marks
              | none => stk.marks,
            allocated_batch := stk.allocated_batch } ∧
      (update_student s k newname nm).2 ≠ UpdateMsg.not_found ∧
      (∀ m : Int, nm = some m → ¬ (0 ≤ m ∧ m ≤ 100) → m ≠ -1 →
        (update_student s k newname nm).2 = UpdateMsg.updated_marks_out_of_range) := by
  have hne : find_student_by_sap s k ≠ -1 := fun h => (find_eq_neg_one_iff s k).mp h hk
  obtain ⟨j, stk, hj, hstk, hsap, _⟩ := find_some s k hne
  have hjl : j < s.students.length := (List.getElem?_eq_some_iff.mp hstk).1
  have hnot : ¬ ((j : Int) = -1) := by omega
  refine ⟨j, stk, hj, hstk, hsap, ?_⟩
  unfold update_student
  simp only [hj, hnot, if_false, Int.toNat_ofNat, safe_strdup_truncate]
  by_cases hn : newname.length > 0
  · simp only [hn, if_true]
    rw [modify_eq_set_of_getElem? _ s.students j stk hstk]
    have hget : (s.students.set j { stk with name := List.take (NAME_LEN - 1) newname })[j]? =
        some { stk with name := List.take (NAME_LEN - 1) newname } := by
      rw [List.getElem?_set, if_pos rfl, if_pos hjl]
    cases nm with
    | none => simp
    | some m =>
      by_cases hm : 0 ≤ m ∧ m ≤ 100
      · simp only [hm, and_self, if_true]
        rw [modify_eq_set_of_getElem? _ _ j _ hget, List.set_set]
        refine ⟨trivial, rfl, by simp, ?_⟩
        intro m' hm' hnot'
        cases hm'
        exact absurd hm hnot'
      · simp only [hm, if_false]
        by_cases hm1 : m = -1
        · have hne1 : ¬ (m ≠ -1) := fun h => h hm1
          simp only [hne1, if_false]
          refine ⟨trivial, trivial, by simp, ?_⟩
          intro m' hm' _ hne'
          cases hm'
          exact absurd hm1 hne'
        · have hne1 : m ≠ -1 := hm1
          simp only [hne1, if_true, ne_eq, not_false_eq_true]
          exact ⟨trivial, trivial, by simp, fun _ _ _ _ => trivial⟩
  · simp only [hn, if_false]
    have e : s.students = s.students.set j
        { sap := stk.sap, name := stk.name, marks := stk.marks,
          allocated_batch := stk.allocated_batch } :=
      (set_eq_self_of_getElem? s.students j stk (fun _ => hstk)).symm
    cases nm with
    | none =>
      simp only
      exact ⟨trivial, e, by simp, by simp⟩
    | some m =>
      by_cases hm : 0 ≤ m ∧ m ≤ 100
      · simp only [hm, and_self, if_true]
        rw [modify_eq_set_of_getElem? _ s.students j stk hstk]
        refine ⟨trivial, rfl, by simp, ?_⟩
        intro m' hm' hnot'
        cases hm'
        exact absurd hm hnot'
      · simp only [hm, if_false]
        by_cases hm1 : m = -1
        · have hne1 : ¬ (m ≠ -1) := fun h => h hm1
          simp only [hne1, if_false]
          refine ⟨trivial, e, by simp, ?_⟩
          intro m' hm' _ hne'
          cases hm'
          exact absurd hm1 hne'
        · have hne1 : m ≠ -1 := hm1
          simp only [hne1, if_true, ne_eq, not_false_eq_true]
          exact ⟨trivial, e, by simp, fun _ _ _ _ => trivial⟩

/-- The update theorem applied to a new name together with marks `500`. -/
theorem update_student_effect_witness :
    ['S', '1'] ∈ keys paired_store ∧
    (update_student paired_store ['S', '1'] ['Z', 'e', 'd'] (some 500)).1.batches =
      paired_store.batches ∧
    (update_student paired_store ['S', '1'] ['Z', 'e', 'd'] (some 500)).2 ≠ UpdateMsg.not_found :=
  ⟨by decide,
    (update_student_effect paired_store ['S', '1'] ['Z', 'e', 'd'] (some 500) (by decide)).elim
      (fun _ h => h.elim (fun _ h' => h'.2.2.2.1)),
    (update_student_effect paired_store ['S', '1'] ['Z', 'e', 'd'] (some 500) (by decide)).elim
      (fun _ h => h.elim (fun _ h' => h'.2.2.2.2.2.1))⟩

/-- C12 as stated fails: with the new name `Zed` and the marks `500` for the key
`S1`, `update_student` stores the name, keeps the marks `90`, and reports the
student updated with the marks out of range; the store is not what it was. -/
theorem update_out_of_range_applies_name :
    (update_student paired_store ['S', '1'] ['Z', 'e', 'd'] (some 500)).2 =
      UpdateMsg.updated_marks_out_of_range ∧
    lookup_student (update_student paired_store ['S', '1'] ['Z', 'e', 'd'] (some 500)).1
        ['S', '1'] =
      some { sap := ['S', '1'], name := ['Z', 'e', 'd'], marks := 90, allocated_batch := 0 } ∧
    (update_student paired_store ['S', '1'] ['Z', 'e', 'd'] (some 500)).1 ≠ paired_store := by
  decide

/-! ## The random strategy -/

theorem shuffle_loop_eq_foldl (rand : Nat → Nat) :
    ∀ (i k : Nat) (l : List Int),
      shuffle_loop rand i k l =
        (shuffle_swaps rand i k).foldl (fun acc p => swap_cells acc p.1 p.2) l := by
  intro i
  induction i with
  | zero => intro k l; rfl
  | succ i ih =>
    intro k l
    simp only [shuffle_loop, shuffle_swaps, List.foldl_cons]
    exact ih _ _

theorem shuffle_swaps_bound (rand : Nat → Nat) :
    ∀ (i k : Nat) (p : Nat × Nat), p ∈ shuffle_swaps rand i k → p.2 ≤ p.1 ∧ 1 ≤ p.1 ∧ p.1 ≤ i := by
  intro i
  induction i with
  | zero => intro k p h; simp [shuffle_swaps] at h
  | succ i ih =>
    intro k p h
    simp only [shuffle_swaps, List.mem_cons] at h
    rcases h with rfl | h
    · have := Nat.mod_lt (rand k) (show 0 < i + 2 by omega)
      simp only
      omega
    · have := ih _ p h
      omega

theorem mem_index_list (N : Nat) (x : Int) : x ∈ index_list N ↔ 0 ≤ x ∧ x < N := by
  simp only [index_list, List.mem_map, List.mem_range]
  constructor
  · rintro ⟨i, hi, rfl⟩
    exact ⟨Int.ofNat_nonneg i, by simpa using hi⟩
  · rintro ⟨h0, h1⟩
    refine ⟨x.toNat, by omega, ?_⟩
    simp only [Int.ofNat_eq_coe]
    omega

/-- C14: the random strategy always yields a permutation.  For every `N` and
every stream of values returned by `rand()`, the array built by the shuffle loop
is a rearrangement of `0 .. N-1`: it has `N` cells, every entry is in
`0 .. N-1` and each index occurs exactly once; the array is the result of the
listed exchanges, each of which touches cells `j <= i` with `1 <= i <= N - 1`;
and the allocation driven by it keeps a consistent store consistent, with
`0 <= filled <= capacity` for every batch. -/
theorem random_order_is_permutation (rand : Nat → Nat) (N : Nat) :
    List.Perm (random_order rand N) (index_list N) ∧
    (random_order rand N).length = N ∧
    (∀ x ∈ random_order rand N, 0 ≤ x ∧ x < N) ∧
    (∀ i : Nat, i < N → (random_order rand N).count (i : Int) = 1) ∧
    random_order rand N =
      (shuffle_swaps rand (N - 1) 0).foldl (fun acc p => swap_cells acc p.1 p.2)
        (index_list N) ∧
    (∀ p ∈ shuffle_swaps rand (N - 1) 0, p.2 ≤ p.1 ∧ 1 ≤ p.1 ∧ p.1 ≤ N - 1) ∧
    (∀ s : Store, Consistent s →
      Consistent (allocation_random rand s) ∧
      ∀ b ∈ (allocation_random rand s).batches, 0 ≤ b.filled ∧ b.filled ≤ b.capacity) := by
  have hperm := random_order_perm rand N
  refine ⟨hperm, ?_, ?_, ?_, shuffle_loop_eq_foldl rand _ _ _, shuffle_swaps_bound rand _ _, ?_⟩
  · rw [hperm.length_eq]; simp [index_list]
  · intro x hx
    exact (mem_index_list N x).mp (hperm.mem_iff.mp hx)
  · intro i hi
    apply List.count_eq_one_of_mem (random_order_nodup rand N)
    exact hperm.mem_iff.mpr ((mem_index_list N i).mpr ⟨by omega, by omega⟩)
  · intro s hc
    have hcons : Consistent (allocation_random rand s) := by
      unfold allocation_random
      split
      · exact hc
      · exact allocate_consistent s _ (wf_of_consistent hc) (random_order_nodup rand _)
    refine ⟨hcons, ?_⟩
    intro b hb
    obtain ⟨i, hi⟩ := List.mem_iff_getElem?.mp hb
    obtain ⟨h1, h2, _⟩ := hcons.wf i b hi
    exact ⟨h1, h2⟩

/-! ## The sorting strategies -/

theorem orderedInsert_pairwise {α : Type} (r : α → α → Prop) [DecidableRel r] (a : α) :
    ∀ (t : List α), (∀ x ∈ a :: t, ∀ y ∈ a :: t, r x y ∨ r y x) →
      (∀ x ∈ a :: t, ∀ y ∈ a :: t, ∀ z ∈ a :: t, r x y → r y z → r x z) →
      t.Pairwise r → (t.orderedInsert r a).Pairwise r := by
  intro t
  induction t with
  | nil => intro _ _ _; simp
  | cons b t ih =>
    intro htot htr hp
    have hb : b ∈ a :: b :: t := List.mem_cons_of_mem _ (List.mem_cons_self _ _)
    have ha : a ∈ a :: b :: t := List.mem_cons_self _ _
    obtain ⟨hbt, hpt⟩ := List.pairwise_cons.mp hp
    simp only [List.orderedInsert]
    split
    · rename_i hab
      refine List.pairwise_cons.mpr ⟨?_, hp⟩
      intro x hx
      rcases List.mem_cons.mp hx with rfl | hx
      · exact hab
      · exact htr a ha b hb x (List.mem_cons_of_mem _ (List.mem_cons_of_mem _ hx)) hab
          (hbt x hx)
    · rename_i hab
      have hba : r b a := by
        rcases htot a ha b hb with h | h
        · exact absurd h hab
        · exact h
      have hsub : ∀ x, x ∈ a :: t → x ∈ a :: b :: t := by
        intro x hx
        rcases List.mem_cons.mp hx with rfl | hx
        · exact ha
        · exact List.mem_cons_of_mem _ (List.mem_cons_of_mem _ hx)
      refine List.pairwise_cons.mpr ⟨?_, ?_⟩
      · intro x hx
        rcases (List.mem_orderedInsert r).mp hx with rfl | hx
        · exact hba
        · exact hbt x hx
      · exact ih (fun x hx y hy => htot x (hsub x hx) y (hsub y hy))
          (fun x hx y hy z hz => htr x (hsub x hx) y (hsub y hy) z (hsub z hz)) hpt

theorem insertionSort_pairwise {α : Type} (r : α → α → Prop) [DecidableRel r] :
    ∀ (l : List α), (∀ x ∈ l, ∀ y ∈ l, r x y ∨ r y x) →
      (∀ x ∈ l, ∀ y ∈ l, ∀ z ∈ l, r x y → r y z → r x z) →
      (l.insertionSort r).Pairwise r := by
  intro l
  induction l with
  | nil => intro _ _; simp
  | cons a t ih =>
    intro htot htr
    simp only [List.insertionSort]
    have hmem : ∀ x, x ∈ a :: t.insertionSort r → x ∈ a :: t := by
      intro x hx
      rcases List.mem_cons.mp hx with rfl | hx
      · exact List.mem_cons_self _ _
      · exact List.mem_cons_of_mem _ ((List.perm_insertionSort r t).mem_iff.mp hx)
    apply orderedInsert_pairwise r a
    · exact fun x hx y hy => htot x (hmem x hx) y (hmem y hy)
    · exact fun x hx y hy z hz => htr x (hmem x hx) y (hmem y hy) z (hmem z hz)
    · exact ih (fun x hx y hy => htot x (List.mem_cons_of_mem _ hx) y (List.mem_cons_of_mem _ hy))
        (fun x hx y hy z hz => htr x (List.mem_cons_of_mem _ hx) y (List.mem_cons_of_mem _ hy) z
          (List.mem_cons_of_mem _ hz))

theorem cmp_total_of_consistent {cmp : Student → Student → Int} {l : List Student}
    (h : CmpConsistent cmp l) : ∀ a ∈ l, ∀ b ∈ l, cmp a b ≤ 0 ∨ cmp b a ≤ 0 := by
  intro a ha b hb
  by_cases hab : cmp a b ≤ 0
  · exact Or.inl hab
  · right
    have := (h.1 b hb a ha).mpr (by omega)
    omega

theorem insertion_qsort_sorts : QsortSorts insertion_qsort := by
  intro cmp l h
  refine ⟨List.perm_insertionSort _ l, ?_⟩
  exact insertionSort_pairwise _ l (cmp_total_of_consistent h) h.2

theorem wrap32_of_range (n : Int) (h0 : -2147483648 ≤ n) (h1 : n < 2147483648) :
    wrap32 n = n := by
  unfold wrap32
  omega

theorem cmp_marks_desc_consistent (l : List Student)
    (h : ∀ st ∈ l, -1073741824 ≤ st.marks ∧ st.marks ≤ 1073741823) :
    CmpConsistent cmp_marks_desc l := by
  have hval : ∀ a ∈ l, ∀ b ∈ l, cmp_marks_desc a b = b.marks - a.marks := by
    intro a ha b hb
    have h1 := h a ha
    have h2 := h b hb
    exact wrap32_of_range _ (by omega) (by omega)
  constructor
  · intro a ha b hb
    rw [hval a ha b hb, hval b hb a ha]
    omega
  · intro a ha b hb c hc
    rw [hval a ha b hb, hval b hb c hc, hval a ha c hc]
    omega

theorem char_toNat_inj (c d : Char) (h : c.toNat = d.toNat) : c = d := by
  rw [← Char.ofNat_toNat c, ← Char.ofNat_toNat d, h]

theorem tolower_toNat_ne_zero (c : Char) (h : c.toNat ≠ 0) : (tolower c).toNat ≠ 0 := by
  unfold tolower
  split
  · rename_i hup
    have hA : 'A'.toNat = 65 := by decide
    have hZ : 'Z'.toNat = 90 := by decide
    rw [hA, hZ] at hup
    generalize c.toNat = n at hup
    obtain ⟨h1, h2⟩ := hup
    interval_cases n <;> decide
  · exact h

theorem strcasecmp_antisymm :
    ∀ (x y : List Char), strcasecmp x y < 0 ↔ 0 < strcasecmp y x := by
  intro x
  induction x with
  | nil =>
    intro y
    cases y with
    | nil => simp [strcasecmp]
    | cons b bs => simp only [strcasecmp]; omega
  | cons a as ih =>
    intro y
    cases y with
    | nil => simp only [strcasecmp]; omega
    | cons b bs =>
      simp only [strcasecmp]
      by_cases hab : tolower a = tolower b
      · have hba : tolower b = tolower a := hab.symm
        simp only [hab, if_true]
        exact ih bs
      · have hba : ¬ tolower b = tolower a := fun e => hab e.symm
        simp only [hab, hba, if_false]
        omega

theorem strcasecmp_trans :
    ∀ (x y z : List Char), NoNul x → NoNul y → NoNul z →
      strcasecmp x y ≤ 0 → strcasecmp y z ≤ 0 → strcasecmp x z ≤ 0 := by
  intro x
  induction x with
  | nil =>
    intro y z _ _ _ _ _
    cases z with
    | nil => simp [strcasecmp]
    | cons c cs => simp only [strcasecmp]; omega
  | cons a as ih =>
    intro y z hx hy hz hxy hyz
    have ha0 : (tolower a).toNat ≠ 0 :=
      tolower_toNat_ne_zero a (hx a (List.mem_cons_self _ _))
    cases y with
    | nil =>
      simp only [strcasecmp] at hxy
      omega
    | cons b bs =>
      have hb0 : (tolower b).toNat ≠ 0 :=
        tolower_toNat_ne_zero b (hy b (List.mem_cons_self _ _))
      cases z with
      | nil =>
        simp only [strcasecmp] at hyz
        omega
      | cons c cs =>
        simp only [strcasecmp] at hxy hyz ⊢
        have hxs : NoNul as := fun d hd => hx d (List.mem_cons_of_mem _ hd)
        have hys : NoNul bs := fun d hd => hy d (List.mem_cons_of_mem _ hd)
        have hzs : NoNul cs := fun d hd => hz d (List.mem_cons_of_mem _ hd)
        by_cases hab : tolower a = tolower b
        · by_cases hbc : tolower b = tolower c
          · have hac : tolower a = tolower c := hab.trans hbc
            simp only [hab, hbc, hac, if_true] at hxy hyz ⊢
            exact ih bs cs hxs hys hzs hxy hyz
          · have hac : ¬ tolower a = tolower c := fun e => hbc (hab.symm.trans e)
            simp only [hbc, hac, if_false] at hyz ⊢
            rw [hab]; exact hyz
        · by_cases hbc : tolower b = tolower c
          · have hac : ¬ tolower a = tolower c := fun e => hab (e.trans hbc.symm)
            simp only [hab, hac, if_false] at hxy ⊢
            rw [← hbc]; exact hxy
          · simp only [hab, hbc, if_false] at hxy hyz
            by_cases hac : tolower a = tolower c
            · exfalso
              apply hab
              apply char_toNat_inj
              have : (tolower a).toNat = (tolower c).toNat := by rw [hac]
              omega
            · simp only [hac, if_false]
              omega

theorem cmp_name_asc_consistent (l : List Student) (h : ∀ st ∈ l, NoNul st.name) :
    CmpConsistent cmp_name_asc l :=
  ⟨fun a _ b _ => strcasecmp_antisymm a.name b.name,
   fun a ha b hb c hc => strcasecmp_trans a.name b.name c.name (h a ha) (h b hb) (h c hc)⟩

theorem cmp_name_desc_consistent (l : List Student) (h : ∀ st ∈ l, NoNul st.name) :
    CmpConsistent cmp_name_desc l :=
  ⟨fun a _ b _ => strcasecmp_antisymm b.name a.name,
   fun a ha b hb c hc hab hbc =>
     strcasecmp_trans c.name b.name a.name (h c hc) (h b hb) (h a ha) hbc hab⟩

theorem cmp_sap_asc_consistent (l : List Student) (h : ∀ st ∈ l, NoNul st.sap) :
    CmpConsistent cmp_sap_asc l :=
  ⟨fun a _ b _ => strcasecmp_antisymm a.sap b.sap,
   fun a ha b hb c hc => strcasecmp_trans a.sap b.sap c.sap (h a ha) (h b hb) (h c hc)⟩

/-- For a conforming `qsort`, a consistent comparison and unique keys, the order
built from the sorted copy lists every index once and is sorted by the
comparison. -/
theorem sorted_order_spec (qsort : Qsort) (hq : QsortSorts qsort)
    (cmp : Student → Student → Int) (s : Store) (hu : UniqueKeys s)
    (hc : CmpConsistent cmp s.students) :
    List.Perm (sorted_order qsort cmp s) (index_list s.students.length) ∧
      OrderSortedBy cmp s (sorted_order qsort cmp s) := by
  obtain ⟨hperm, hsorted⟩ := hq cmp s.students hc
  constructor
  · have hp := hperm.map (fun st => find_student_by_sap s st.sap)
    rw [map_find_eq_range s hu] at hp
    exact hp
  · unfold OrderSortedBy sorted_order
    rw [List.pairwise_map]
    apply List.Pairwise.imp_of_mem _ hsorted
    intro a b ha hb hab a' b' ha' hb'
    obtain ⟨i, hi⟩ := List.mem_iff_getElem?.mp (hperm.mem_iff.mp ha)
    obtain ⟨j, hj⟩ := List.mem_iff_getElem?.mp (hperm.mem_iff.mp hb)
    rw [find_of_unique s hu i a hi, Int.toNat_ofNat, hi] at ha'
    rw [find_of_unique s hu j b hj, Int.toNat_ofNat, hj] at hb'
    cases ha'; cases hb'
    exact hab

/-- Where the subtraction of `cmp_marks_desc` cannot overflow: for a `qsort` that
sorts as the C standard promises, a store with unique keys whose names and keys
are C strings and whose marks are far from the limits of `int`, each sorting
strategy hands the allocator the order built from the sorted copy; that order is
a permutation of the indices `0 .. N-1` and is sorted by the comparison of the
strategy (for the marks: non-increasing). -/
theorem sorted_strategies_order (qsort : Qsort) (hq : QsortSorts qsort) (s : Store)
    (hu : UniqueKeys s) (hstr : ∀ st ∈ s.students, NoNul st.name ∧ NoNul st.sap)
    (hmarks : ∀ st ∈ s.students, -1073741824 ≤ st.marks ∧ st.marks ≤ 1073741823) :
    (allocation_by_marks qsort s =
        (if s.students.length = 0 ∨ s.batches.length = 0 then s
         else allocate_from_order s (sorted_order qsort cmp_marks_desc s)) ∧
      allocation_alphabetical qsort false s =
        (if s.students.length = 0 ∨ s.batches.length = 0 then s
         else allocate_from_order s (sorted_order qsort cmp_name_asc s)) ∧
      allocation_alphabetical qsort true s =
        (if s.students.length = 0 ∨ s.batches.length = 0 then s
         else allocate_from_order s (sorted_order qsort cmp_name_desc s)) ∧
      allocation_by_sap_asc qsort s =
        (if s.students.length = 0 ∨ s.batches.length = 0 then s
         else allocate_from_order s (sorted_order qsort cmp_sap_asc s))) ∧
    (List.Perm (sorted_order qsort cmp_marks_desc s) (index_list s.students.length) ∧
      OrderSortedBy cmp_marks_desc s (sorted_order qsort cmp_marks_desc s) ∧
      (sorted_order qsort cmp_marks_desc s).Pairwise (fun x y => ∀ (a b : Student),
        s.students[x.toNat]? = some a → s.students[y.toNat]? = some b → b.marks ≤ a.marks)) ∧
    (List.Perm (sorted_order qsort cmp_name_asc s) (index_list s.students.length) ∧
      OrderSortedBy cmp_name_asc s (sorted_order qsort cmp_name_asc s)) ∧
    (List.Perm (sorted_order qsort cmp_name_desc s) (index_list s.students.length) ∧
      OrderSortedBy cmp_name_desc s (sorted_order qsort cmp_name_desc s)) ∧
    (List.Perm (sorted_order qsort cmp_sap_asc s) (index_list s.students.length) ∧
      OrderSortedBy cmp_sap_asc s (sorted_order qsort cmp_sap_asc s)) := by
  have hm := sorted_order_spec qsort hq cmp_marks_desc s hu
    (cmp_marks_desc_consistent s.students hmarks)
  refine ⟨⟨rfl, rfl, rfl, rfl⟩, ⟨hm.1, hm.2, ?_⟩,
    sorted_order_spec qsort hq cmp_name_asc s hu
      (cmp_name_asc_consistent s.students (fun st hst => (hstr st hst).1)),
    sorted_order_spec qsort hq cmp_name_desc s hu
      (cmp_name_desc_consistent s.students (fun st hst => (hstr st hst).1)),
    sorted_order_spec qsort hq cmp_sap_asc s hu
      (cmp_sap_asc_consistent s.students (fun st hst => (hstr st hst).2))⟩
  apply List.Pairwise.imp _ hm.2
  intro x y h a b ha hb
  have hab := h a b ha hb
  have h1 := hmarks a (List.getElem?_mem ha)
  have h2 := hmarks b (List.getElem?_mem hb)
  have e : cmp_marks_desc a b = b.marks - a.marks :=
    wrap32_of_range _ (by omega) (by omega)
  rw [e] at hab
  omega

/-- The sorting strategies on `demo_store` (marks 90, 70, 80) with insertion sort
as the library sort: the order by marks is `0, 2, 1`. -/
theorem sorted_strategies_order_witness :
    sorted_order insertion_qsort cmp_marks_desc demo_store = [0, 2, 1] ∧
    List.Perm (sorted_order insertion_qsort cmp_marks_desc demo_store)
      (index_list demo_store.students.length) ∧
    (sorted_order insertion_qsort cmp_marks_desc demo_store).Pairwise
      (fun x y => ∀ (a b : Student), demo_store.students[x.toNat]? = some a →
        demo_store.students[y.toNat]? = some b → b.marks ≤ a.marks) :=
  have h := sorted_strategies_order insertion_qsort insertion_qsort_sorts demo_store
    (by unfold UniqueKeys; decide) (by unfold NoNul; decide) (by decide)
  ⟨by decide, h.2.1.1, h.2.1.2.2⟩

/-- Two records that are the only members of a sorted permutation of themselves
stand in the one order the comparison allows. -/
theorem sorted_pair_forced (cmp : Student → Student → Int) (a b : Student) (l : List Student)
    (hab : a ≠ b) (hcmp : 0 < cmp a b) (hperm : List.Perm l [a, b])
    (hsorted : l.Pairwise (fun x y => cmp x y ≤ 0)) : l = [b, a] := by
  have hlen := hperm.length_eq
  have hnd : l.Nodup := hperm.nodup_iff.mpr (by simp [hab])
  match l, hlen, hnd, hperm, hsorted with
  | [x, y], _, hnd, hperm, hsorted =>
    have hx : x = a ∨ x = b := by simpa using hperm.mem_iff.mp (List.mem_cons_self x [y])
    have hy : y = a ∨ y = b := by
      simpa using hperm.mem_iff.mp (List.mem_cons_of_mem x (List.mem_cons_self y []))
    have hxy : x ≠ y := by
      intro e
      simp [e] at hnd
    have hle : cmp x y ≤ 0 := by
      simpa using hsorted
    rcases hx with rfl | rfl <;> rcases hy with rfl | rfl
    · exact absurd rfl hxy
    · omega
    · rfl
    · exact absurd rfl hxy

/-- C13, evaluated where the subtraction of `cmp_marks_desc` overflows: the store
loaded from `overflow_file` holds `S1` with marks `2000000000` and `S2` with
marks `-2000000000` under unique keys; `cmp_marks_desc` of `S1` and `S2` is
`294967296`, so every `qsort` that sorts as the C standard promises puts `S2`
first, the order handed to the allocator is `1, 0`, which is a permutation of
the indices but not score non-increasing, and allocation by marks fills the
batch in that order. -/
theorem marks_order_overflow (qsort : Qsort) (hq : QsortSorts qsort) :
    overflow_store.students =
      [ { sap := ['S', '1'], name := ['A', 'n', 'n'], marks := 2000000000, allocated_batch := -1 },
        { sap := ['S', '2'], name := ['B', 'e', 'n'], marks := -2000000000,
          allocated_batch := -1 } ] ∧
    UniqueKeys overflow_store ∧
    (∀ (a b : Student), overflow_store.students[0]? = some a →
      overflow_store.students[1]? = some b → cmp_marks_desc a b = 294967296) ∧
    sorted_order qsort cmp_marks_desc overflow_store = [1, 0] ∧
    List.Perm (sorted_order qsort cmp_marks_desc overflow_store)
      (index_list overflow_store.students.length) ∧
    ¬ (sorted_order qsort cmp_marks_desc overflow_store).Pairwise
      (fun x y => ∀ (a b : Student), overflow_store.students[x.toNat]? = some a →
        overflow_store.students[y.toNat]? = some b → b.marks ≤ a.marks) ∧
    (allocation_by_marks qsort overflow_store).batches =
      [ { name := ['B'], capacity := 2, filled := 2, members := [1, 0] } ] := by
  have hstud : overflow_store.students =
      [ { sap := ['S', '1'], name := ['A', 'n', 'n'], marks := 2000000000, allocated_batch := -1 },
        { sap := ['S', '2'], name := ['B', 'e', 'n'], marks := -2000000000,
          allocated_batch := -1 } ] := by decide
  have hcons : CmpConsistent cmp_marks_desc overflow_store.students := by
    rw [hstud]
    unfold CmpConsistent
    decide
  obtain ⟨hperm, hsorted⟩ := hq cmp_marks_desc overflow_store.students hcons
  have hforced : qsort cmp_marks_desc overflow_store.students =
      [ { sap := ['S', '2'], name := ['B', 'e', 'n'], marks := -2000000000,
          allocated_batch := -1 },
        { sap := ['S', '1'], name := ['A', 'n', 'n'], marks := 2000000000,
          allocated_batch := -1 } ] := by
    rw [hstud] at hperm
    exact sorted_pair_forced cmp_marks_desc _ _ _ (by decide) (by decide) hperm hsorted
  have horder : sorted_order qsort cmp_marks_desc overflow_store = [1, 0] := by
    unfold sorted_order
    rw [hforced]
    decide
  have halloc : allocation_by_marks qsort overflow_store =
      allocate_from_order overflow_store (sorted_order qsort cmp_marks_desc overflow_store) := by
    unfold allocation_by_marks allocation_sorted sorted_order
    rw [if_neg (by decide)]
  refine ⟨hstud, by unfold UniqueKeys; decide, ?_, horder, ?_, ?_, ?_⟩
  · intro a b ha hb
    rw [hstud] at ha hb
    cases ha
    cases hb
    decide
  · rw [horder]
    decide
  · rw [horder]
    intro hp
    have h := (List.pairwise_cons.mp hp).1 0 (List.mem_singleton.mpr rfl) _ _
      (by rw [hstud]; rfl) (by rw [hstud]; rfl)
    revert h
    decide
  · rw [halloc, horder]
    decide

/-- The overflow evaluation with insertion sort as the library sort. -/
theorem marks_order_overflow_witness :
    QsortSorts insertion_qsort ∧
    sorted_order insertion_qsort cmp_marks_desc overflow_store = [1, 0] ∧
    (allocation_by_marks insertion_qsort overflow_store).batches =
      [ { name := ['B'], capacity := 2, filled := 2, members := [1, 0] } ] :=
  have h := marks_order_overflow insertion_qsort insertion_qsort_sorts
  ⟨insertion_qsort_sorts, h.2.2.2.1, h.2.2.2.2.2.2⟩

end SRMS
